import Mathlib

/-!
# libcore/nb4a.go: the protect handshake and the reachability prober

A shallow embedding of `sendFdToProtect`, `tcpPing` and `ParallelPing` from
`src/Neko/libcore/nb4a.go`, followed by theorems about them.

Conventions of the embedding:

* a Go `error` is its message (`err.Error()`); `none` stands for `nil`;
* the calls into package `unix` are answered by an explicit kernel record, and
  every call the function issues is appended to a trace, in program order;
* a dial is answered by an explicit probe record, which also holds the
  readings of the monotonic clock; the goroutines of `ParallelPing` store their
  results in an order chosen by the scheduler, an explicit reordering of the
  started goroutines;
* `encoding/json` is embedded as a parser and a printer over a JSON value
  type; a Go string is a Lean string, so texts are well-formed Unicode;
* `int32` arithmetic wraps modulo `2^32`; `int` and `int64` are taken wide
  enough for the nanosecond counts at hand; `time.Duration` is a count of
  nanoseconds.
-/

namespace Libcore

/-! ## Part 1: `sendFdToProtect` -/

/-- A Go `error`, represented by its message; `none` is `nil`. -/
abbrev GoError := Option String

/-- The two socket options the function sets (both at level `SOL_SOCKET`). -/
inductive SockOpt where
  | SO_RCVTIMEO
  | SO_SNDTIMEO
  deriving DecidableEq, Repr

/-- The Go type `unix.Timeval`. -/
structure Timeval where
  Sec : Int
  Usec : Int
  deriving DecidableEq, Repr

/-- One call into package `unix` issued by `sendFdToProtect`, with the arguments
of the Go call (`p` is the payload and `rights` the descriptors packed by
`unix.UnixRights`). For `socket` the descriptor the kernel handed back is
recorded (`none` when the call failed), so that the descriptor table can be
replayed from a trace. -/
inductive Syscall where
  | socket (ret : Option Int)
  | setsockoptTimeval (fd : Int) (opt : SockOpt) (tv : Timeval)
  | connect (fd : Int) (name : String)
  | sendmsg (fd : Int) (p : List Nat) (rights : List Int) (flags : Nat)
  | read (fd : Int) (len : Nat)
  | close (fd : Int)
  deriving DecidableEq, Repr

/-- The answers of the operating system to the calls of one handshake.
`socket` is the result of `unix.Socket(AF_UNIX, SOCK_STREAM, 0)`; `connect`
and `sendmsg` answer `none` on success and the errno message on failure;
`read` answers the byte count `n` or the errno message. The results of
`setsockopt` and `close` are discarded by the source, so they have no entry. -/
structure Kernel where
  socket : Except String Int
  connect : Int → String → Option String
  sendmsg : Int → List Nat → List Int → Nat → Option String
  read : Int → Nat → Except String Int

/-- The function `sendFdToProtect(fd, path)` (nb4a.go, lines 88-120): the error it returns
and the system calls it issued, in order. The deferred `unix.Close(socketFd)`
is the last call on every path that got past socket creation. -/
def sendFdToProtect (k : Kernel) (fd : Int) (path : String) : GoError × List Syscall :=
  match k.socket with
  | .error err => (some ("failed to create unix socket: " ++ err), [Syscall.socket none])
  | .ok socketFd =>
    let timeout : Timeval := { Sec := 0, Usec := 100 * 1000 }
    let t0 : List Syscall :=
      [ Syscall.socket (some socketFd),
        Syscall.setsockoptTimeval socketFd SockOpt.SO_RCVTIMEO timeout,
        Syscall.setsockoptTimeval socketFd SockOpt.SO_SNDTIMEO timeout,
        Syscall.connect socketFd path ]
    match k.connect socketFd path with
    | some err => (some ("failed to connect: " ++ err), t0 ++ [Syscall.close socketFd])
    | none =>
      let t1 := t0 ++ [Syscall.sendmsg socketFd [] [fd] 0]
      match k.sendmsg socketFd [] [fd] 0 with
      | some err => (some ("failed to send: " ++ err), t1 ++ [Syscall.close socketFd])
      | none =>
        let dummy : List Nat := [1]
        let t2 := t1 ++ [Syscall.read socketFd dummy.length]
        match k.read socketFd dummy.length with
        | .error err => (some ("failed to receive: " ++ err), t2 ++ [Syscall.close socketFd])
        | .ok n =>
          if n ≠ 1 then
            (some "socket closed unexpectedly", t2 ++ [Syscall.close socketFd])
          else
            (none, t2 ++ [Syscall.close socketFd])

/-- The open descriptors after replaying a trace on a descriptor table: a
successful `socket` adds the new descriptor, `close` removes its argument,
the other calls leave the table as it is. -/
def descriptorsAfter : List Int → List Syscall → List Int
  | fds, [] => fds
  | fds, Syscall.socket (some s) :: rest => descriptorsAfter (s :: fds) rest
  | fds, Syscall.close x :: rest => descriptorsAfter (fds.erase x) rest
  | fds, _ :: rest => descriptorsAfter fds rest

/-- The failing `return` statements of the function, one per error it can
return (nb4a.go, lines 91, 103, 108, 114, 117). -/
inductive Failure where
  | socketCreate
  | connect
  | send
  | receive
  | ackLength
  deriving DecidableEq, Repr

/-- The message of the error built at each failing `return`; `e` is the
message of the wrapped errno (`%w`), which line 117 does not have. -/
def Failure.message : Failure → String → String
  | Failure.socketCreate, e => "failed to create unix socket: " ++ e
  | Failure.connect, e => "failed to connect: " ++ e
  | Failure.send, e => "failed to send: " ++ e
  | Failure.receive, e => "failed to receive: " ++ e
  | Failure.ackLength, _ => "socket closed unexpectedly"

/-- The first step that fails under a given kernel, in program order, by the
tests of the source (`err != nil` four times, then `n != 1`); `none` when no
test fires. -/
def firstFailure (k : Kernel) (fd : Int) (path : String) : Option Failure :=
  match k.socket with
  | .error _ => some Failure.socketCreate
  | .ok s =>
    if (k.connect s path).isSome then some Failure.connect
    else if (k.sendmsg s [] [fd] 0).isSome then some Failure.send
    else match k.read s 1 with
      | .error _ => some Failure.receive
      | .ok n => if n = 1 then none else some Failure.ackLength

/-- What the peer does on the connection once the descriptor was sent: it
sends an acknowledgment of one byte or more, closes without sending, resets
the connection, or stays silent until the receive timeout elapses. -/
inductive PeerAnswer where
  | ack (first : Nat) (more : List Nat)
  | closed
  | reset
  | silent
  deriving DecidableEq, Repr

/-- The answer of `read(2)` on the stream socket for a buffer of `len` bytes:
the bytes that arrived, as many as fit the buffer; zero once the peer closed
with nothing sent; an error after a reset or when `SO_RCVTIMEO` elapses. -/
def readAnswer (peer : PeerAnswer) (len : Nat) : Except String Int :=
  match peer with
  | PeerAnswer.ack _ more => .ok (min len (1 + more.length) : Nat)
  | PeerAnswer.closed => .ok 0
  | PeerAnswer.reset => .error "connection reset by peer"
  | PeerAnswer.silent => .error "resource temporarily unavailable"

/-- The kernel `k` with its `read` answered for a given peer. -/
def kernelWithPeer (k : Kernel) (peer : PeerAnswer) : Kernel :=
  { k with read := fun _ len => readAnswer peer len }

/-- The failure mode by the numbered list of the specification, section 4.1:
modes 1 to 3 are the failures of socket creation, connect and send; mode 4 is
"read failure or peer closed before sending the ack" (the peer closed, reset
the connection or stayed silent); mode 5 is "ack present but not exactly one
byte" (the peer sent more than one byte); `none` when the peer sent exactly
one byte. -/
def specFailure (k : Kernel) (peer : PeerAnswer) (fd : Int) (path : String) : Option Failure :=
  match k.socket with
  | .error _ => some Failure.socketCreate
  | .ok s =>
    if (k.connect s path).isSome then some Failure.connect
    else if (k.sendmsg s [] [fd] 0).isSome then some Failure.send
    else match peer with
      | PeerAnswer.ack _ [] => none
      | PeerAnswer.ack _ (_ :: _) => some Failure.ackLength
      | _ => some Failure.receive

/-- The kind of a system call, its arguments dropped. -/
inductive CallKind where
  | socket
  | setsockopt
  | connect
  | sendmsg
  | read
  | close
  deriving DecidableEq, Repr

/-- The kind of a call. -/
def Syscall.kind : Syscall → CallKind
  | Syscall.socket _ => CallKind.socket
  | Syscall.setsockoptTimeval _ _ _ => CallKind.setsockopt
  | Syscall.connect _ _ => CallKind.connect
  | Syscall.sendmsg _ _ _ _ => CallKind.sendmsg
  | Syscall.read _ _ => CallKind.read
  | Syscall.close _ => CallKind.close

/-- The calls of a complete handshake on socket `s`, in program order. -/
def fullHandshake (s : Int) (fd : Int) (path : String) : List Syscall :=
  [ Syscall.socket (some s),
    Syscall.setsockoptTimeval s SockOpt.SO_RCVTIMEO { Sec := 0, Usec := 100000 },
    Syscall.setsockoptTimeval s SockOpt.SO_SNDTIMEO { Sec := 0, Usec := 100000 },
    Syscall.connect s path,
    Syscall.sendmsg s [] [fd] 0,
    Syscall.read s 1,
    Syscall.close s ]

/-- A kernel on which every step succeeds: the socket is descriptor 9 and
the peer sends its one byte. -/
def kernelOk : Kernel :=
  { socket := .ok 9, connect := fun _ _ => none, sendmsg := fun _ _ _ _ => none,
    read := fun _ _ => .ok 1 }

/-- A kernel with nobody listening on the path: `connect` is refused. -/
def kernelRefused : Kernel :=
  { kernelOk with connect := fun _ _ => some "connection refused" }

/-- A kernel whose `read` times out (`SO_RCVTIMEO` elapsed). -/
def kernelReadTimeout : Kernel :=
  { kernelOk with read := fun _ _ => .error "resource temporarily unavailable" }

/-! ## Part 2: the JSON text layer (`encoding/json`, as used by `ParallelPing`) -/

/-- A JSON value. A number keeps the text of its literal. -/
inductive Json where
  | null
  | bool (b : Bool)
  | num (lit : String)
  | str (s : String)
  | arr (elems : List Json)
  | obj (members : List (String × Json))

/-- The four white-space characters of JSON. -/
def isSpace (c : Char) : Bool :=
  c = ' ' || c = '\t' || c = '\r' || c = '\n'

/-- Drop leading white space. -/
def skipSpace : List Char → List Char
  | [] => []
  | c :: cs => if isSpace c then skipSpace cs else c :: cs

/-- The value of a hexadecimal digit, either case. -/
def hexVal (c : Char) : Option Nat :=
  if 48 ≤ c.toNat ∧ c.toNat ≤ 57 then some (c.toNat - 48)
  else if 97 ≤ c.toNat ∧ c.toNat ≤ 102 then some (c.toNat - 87)
  else if 65 ≤ c.toNat ∧ c.toNat ≤ 70 then some (c.toNat - 55)
  else none

/-- One piece of a string literal: a character (written as itself or through a
two-character escape) or the 16-bit value of a `\uXXXX` escape. -/
inductive StrItem where
  | char (c : Char)
  | unit (n : Nat)

/-- The character a two-character escape stands for. -/
def unescape (e : Char) : Option Char :=
  if e = '"' then some '"'
  else if e = '\\' then some '\\'
  else if e = '/' then some '/'
  else if e = 'b' then some (Char.ofNat 8)
  else if e = 'f' then some (Char.ofNat 12)
  else if e = 'n' then some '\n'
  else if e = 'r' then some '\r'
  else if e = 't' then some '\t'
  else none

/-- Scan the body of a string literal, the opening quote already consumed, up
to and including the closing quote. A raw control character, an unknown escape
and a missing closing quote are syntax errors. -/
def scanItems : List Char → Option (List StrItem × List Char)
  | [] => none
  | c :: rest =>
    if c = '"' then some ([], rest)
    else if c = '\\' then
      match rest with
      | [] => none
      | e :: rest1 =>
        if e = 'u' then
          match rest1 with
          | h1 :: h2 :: h3 :: h4 :: rest2 =>
            match hexVal h1, hexVal h2, hexVal h3, hexVal h4 with
            | some x, some y, some z, some w =>
              match scanItems rest2 with
              | some (items, r) => some (StrItem.unit (((x * 16 + y) * 16 + z) * 16 + w) :: items, r)
              | none => none
            | _, _, _, _ => none
          | _ => none
        else
          match unescape e with
          | some ch =>
            match scanItems rest1 with
            | some (items, r) => some (StrItem.char ch :: items, r)
            | none => none
          | none => none
    else if c.toNat < 32 then none
    else
      match scanItems rest with
      | some (items, r) => some (StrItem.char c :: items, r)
      | none => none

/-- The character of a lone `\uXXXX` escape: the replacement character when the
value is a surrogate. -/
def unitChar (n : Nat) : Char :=
  if 0xD800 ≤ n ∧ n < 0xE000 then Char.ofNat 0xFFFD else Char.ofNat n

/-- Turn the pieces of a literal into characters, with the last `\uXXXX` value
not yet written held in `pending`: a high surrogate followed directly by a low
surrogate is one character, any other surrogate becomes the replacement
character (as `unquote` of `encoding/json` does). -/
def decodeFrom : Option Nat → List StrItem → List Char
  | none, [] => []
  | none, StrItem.char c :: rest => c :: decodeFrom none rest
  | none, StrItem.unit n :: rest => decodeFrom (some n) rest
  | some hi, [] => [unitChar hi]
  | some hi, StrItem.char c :: rest => unitChar hi :: c :: decodeFrom none rest
  | some hi, StrItem.unit lo :: rest =>
    if 0xD800 ≤ hi ∧ hi < 0xDC00 ∧ 0xDC00 ≤ lo ∧ lo < 0xE000 then
      Char.ofNat (0x10000 + (hi - 0xD800) * 0x400 + (lo - 0xDC00)) :: decodeFrom none rest
    else unitChar hi :: decodeFrom (some lo) rest

/-- The characters of a scanned literal. -/
def decodeItems (items : List StrItem) : List Char :=
  decodeFrom none items

/-- A string literal, the opening quote already consumed: its value and the
rest of the input. -/
def scanString (cs : List Char) : Option (String × List Char) :=
  match scanItems cs with
  | some (items, rest) => some (String.mk (decodeItems items), rest)
  | none => none

/-- A decimal digit. -/
def isDigit (c : Char) : Bool :=
  decide (48 ≤ c.toNat ∧ c.toNat ≤ 57)

/-- The integer part of a number: `0`, or a non-zero digit and more digits. -/
def scanInt : List Char → Option (List Char × List Char)
  | [] => none
  | c :: rest =>
    if c = '0' then some (['0'], rest)
    else if isDigit c then some (c :: (rest.span isDigit).1, (rest.span isDigit).2)
    else none

/-- The optional fraction of a number: a dot and at least one digit. -/
def scanFrac : List Char → Option (List Char × List Char)
  | [] => some ([], [])
  | c :: rest =>
    if c = '.' then
      if (rest.span isDigit).1 = [] then none
      else some ('.' :: (rest.span isDigit).1, (rest.span isDigit).2)
    else some ([], c :: rest)

/-- The optional exponent of a number: `e` or `E`, an optional sign and at
least one digit. -/
def scanExp : List Char → Option (List Char × List Char)
  | [] => some ([], [])
  | c :: rest =>
    if c = 'e' ∨ c = 'E' then
      match rest with
      | [] => none
      | s :: rest1 =>
        if s = '+' ∨ s = '-' then
          if (rest1.span isDigit).1 = [] then none
          else some (c :: s :: (rest1.span isDigit).1, (rest1.span isDigit).2)
        else
          if ((s :: rest1).span isDigit).1 = [] then none
          else some (c :: ((s :: rest1).span isDigit).1, ((s :: rest1).span isDigit).2)
    else some ([], c :: rest)

/-- The optional minus sign of a number: the sign read and the rest. -/
def scanSign : List Char → List Char × List Char
  | [] => ([], [])
  | c :: rest => if c = '-' then (['-'], rest) else ([], c :: rest)

/-- A number literal: optional minus, integer part, optional fraction,
optional exponent. Returns the text of the literal and the rest. -/
def scanNumber (cs : List Char) : Option (List Char × List Char) :=
  match scanInt (scanSign cs).2 with
  | none => none
  | some (ip, r1) =>
    match scanFrac r1 with
    | none => none
    | some (fp, r2) =>
      match scanExp r2 with
      | none => none
      | some (ep, r3) => some ((scanSign cs).1 ++ ip ++ fp ++ ep, r3)

/-- The elements of a non-empty array after the opening bracket, up to and
including the closing bracket; `pv` parses one value. -/
def parseElems (pv : List Char → Option (Json × List Char)) :
    Nat → List Char → Option (List Json × List Char)
  | 0, _ => none
  | n + 1, cs =>
    match pv cs with
    | none => none
    | some (v, r) =>
      match skipSpace r with
      | c :: r1 =>
        if c = ',' then
          match parseElems pv n r1 with
          | some (vs, r2) => some (v :: vs, r2)
          | none => none
        else if c = ']' then some ([v], r1)
        else none
      | [] => none

/-- The members of a non-empty object after the opening brace, up to and
including the closing brace; `pv` parses one value. -/
def parseMembers (pv : List Char → Option (Json × List Char)) :
    Nat → List Char → Option (List (String × Json) × List Char)
  | 0, _ => none
  | n + 1, cs =>
    match skipSpace cs with
    | q :: r0 =>
      if q = '"' then
        match scanString r0 with
        | none => none
        | some (key, r1) =>
          match skipSpace r1 with
          | c :: r2 =>
            if c = ':' then
              match pv r2 with
              | none => none
              | some (v, r3) =>
                match skipSpace r3 with
                | d :: r4 =>
                  if d = ',' then
                    match parseMembers pv n r4 with
                    | some (ms, r5) => some ((key, v) :: ms, r5)
                    | none => none
                  else if d = '}' then some ([(key, v)], r4)
                  else none
                | [] => none
            else none
          | [] => none
      else none
    | [] => none

/-- Strip a literal word from the front of the input. -/
def stripWord : List Char → List Char → Option (List Char)
  | [], cs => some cs
  | _ :: _, [] => none
  | w :: ws, c :: cs => if w = c then stripWord ws cs else none

/-- Parse one JSON value, leading white space allowed. The fuel bounds the
nesting depth and the number of elements of an array or object; any fuel
above the length of the input gives the same answer (`parseValue_fuel`). -/
def parseValue : Nat → List Char → Option (Json × List Char)
  | 0, _ => none
  | fuel + 1, cs =>
    match skipSpace cs with
    | [] => none
    | c :: rest =>
      if c = 'n' then (stripWord "ull".data rest).map (fun r => (Json.null, r))
      else if c = 't' then (stripWord "rue".data rest).map (fun r => (Json.bool true, r))
      else if c = 'f' then (stripWord "alse".data rest).map (fun r => (Json.bool false, r))
      else if c = '"' then (scanString rest).map (fun p => (Json.str p.1, p.2))
      else if c = '[' then
        match skipSpace rest with
        | [] => none
        | d :: rest1 =>
          if d = ']' then some (Json.arr [], rest1)
          else (parseElems (parseValue fuel) fuel (d :: rest1)).map (fun p => (Json.arr p.1, p.2))
      else if c = '{' then
        match skipSpace rest with
        | [] => none
        | d :: rest1 =>
          if d = '}' then some (Json.obj [], rest1)
          else (parseMembers (parseValue fuel) fuel (d :: rest1)).map (fun p => (Json.obj p.1, p.2))
      else if c = '-' ∨ isDigit c = true then
        (scanNumber (c :: rest)).map (fun p => (Json.num (String.mk p.1), p.2))
      else none

/-- Parse a whole text as one JSON value: white space may surround the value,
nothing else may follow it. `none` is a syntax error. -/
def parseJson (text : String) : Option Json :=
  match parseValue (text.length + 1) text.data with
  | some (v, rest) => if skipSpace rest = [] then some v else none
  | none => none

/-- The two ways `json.Unmarshal` fails. -/
inductive UnmarshalError where
  | notJson
  | wrongType
  deriving DecidableEq, Repr

/-- Storing one array element into a Go `string`: a string is stored, `null`
leaves the zero value `""`, anything else is a type error. -/
def decodeString : Json → Option String
  | Json.str s => some s
  | Json.null => some ""
  | _ => none

/-- Storing every element of an array into a `[]string`; `none` when an
element is a type error. -/
def decodeElems : List Json → Option (List String)
  | [] => some []
  | v :: vs =>
    match decodeString v, decodeElems vs with
    | some s, some ss => some (s :: ss)
    | _, _ => none

/-- Storing a JSON value into a `[]string`: `null` gives the nil slice, an
array is stored element by element, any other value is a type error. -/
def decodeStrings : Json → Except UnmarshalError (List String)
  | Json.null => .ok []
  | Json.arr elems =>
    match decodeElems elems with
    | some ss => .ok ss
    | none => .error UnmarshalError.wrongType
  | _ => .error UnmarshalError.wrongType

/-- The call `json.Unmarshal([]byte(addresses), &hostPorts)` with `hostPorts` a nil
`[]string`: the text is checked for syntax first, then stored. The nesting
limit of `encoding/json` is left out: a text nested deeper than one array is
an error here as well, a type error. -/
def Unmarshal (addresses : String) : Except UnmarshalError (List String) :=
  match parseJson addresses with
  | none => .error UnmarshalError.notJson
  | some v => decodeStrings v

/-- A lower-case hexadecimal digit. -/
def hexDigit (n : Nat) : Char :=
  if n < 10 then Char.ofNat (48 + n) else Char.ofNat (87 + n)

/-- How `json.Marshal` writes one character of a string (`appendString` of
`encoding/json`, HTML escaping on, as it is for `Marshal`). -/
def escapeChar (c : Char) : List Char :=
  if c = '"' ∨ c = '\\' then ['\\', c]
  else if c = Char.ofNat 8 then ['\\', 'b']
  else if c = Char.ofNat 12 then ['\\', 'f']
  else if c = '\n' then ['\\', 'n']
  else if c = '\r' then ['\\', 'r']
  else if c = '\t' then ['\\', 't']
  else if c.toNat < 32 ∨ c = '<' ∨ c = '>' ∨ c = '&' then
    ['\\', 'u', '0', '0', hexDigit (c.toNat / 16), hexDigit (c.toNat % 16)]
  else if c = Char.ofNat 0x2028 then ['\\', 'u', '2', '0', '2', '8']
  else if c = Char.ofNat 0x2029 then ['\\', 'u', '2', '0', '2', '9']
  else [c]

/-- The body of a string literal as `json.Marshal` writes it. -/
def escapeChars : List Char → List Char
  | [] => []
  | c :: cs => escapeChar c ++ escapeChars cs

/-- A quoted string literal. -/
def renderString (s : String) : List Char :=
  '"' :: (escapeChars s.data ++ ['"'])

mutual
/-- The text of a JSON value, without white space, as `json.Marshal` lays it
out. -/
def render : Json → List Char
  | Json.null => "null".data
  | Json.bool true => "true".data
  | Json.bool false => "false".data
  | Json.num lit => lit.data
  | Json.str s => renderString s
  | Json.arr elems => '[' :: (renderElems elems ++ [']'])
  | Json.obj members => '{' :: (renderMembers members ++ ['}'])
/-- The elements of an array, separated by commas. -/
def renderElems : List Json → List Char
  | [] => []
  | [v] => render v
  | v :: w :: rest => render v ++ (',' :: renderElems (w :: rest))
/-- The members of an object, separated by commas. -/
def renderMembers : List (String × Json) → List Char
  | [] => []
  | [(k, v)] => renderString k ++ (':' :: render v)
  | (k, v) :: m :: rest => renderString k ++ (':' :: render v) ++ (',' :: renderMembers (m :: rest))
end

/-- A signed integer in decimal, as `strconv.AppendInt(b, v, 10)` writes it. -/
def formatInt (v : Int) : String :=
  if v < 0 then String.mk ('-' :: Nat.toDigits 10 v.natAbs) else String.mk (Nat.toDigits 10 v.natAbs)

/-- The value of a member of an object, by key (the first one). -/
def Json.field (key : String) : Json → Option Json
  | Json.obj members => (members.find? (fun m => m.1 = key)).map (fun m => m.2)
  | _ => none

/-- The value parser `pv` reads the text of `v` back, and stops right after
it, whenever a comma, a closing brace or a closing bracket follows. -/
def ReadsBack (pv : List Char → Option (Json × List Char)) (v : Json) : Prop :=
  ∀ (c : Char) (tail : List Char), (c = ',' ∨ c = '}' ∨ c = ']') →
    pv (render v ++ c :: tail) = some (v, c :: tail)

/-! ## Part 3: `tcpPing` and `ParallelPing` -/

/-- The Go struct `PingResult` (nb4a.go, lines 123-128). -/
structure PingResult where
  Host : String
  PingMs : Int
  Success : Bool
  Error : String
  deriving DecidableEq, Repr

/-- The object `json.Marshal` writes for a `PingResult`: the fields in
declaration order under their tags, `error` left out when empty
(`omitempty`). -/
def PingResult.toJson (r : PingResult) : Json :=
  Json.obj
    ([("host", Json.str r.Host),
      ("ping_ms", Json.num (formatInt r.PingMs)),
      ("success", Json.bool r.Success)]
      ++ (if r.Error = "" then [] else [("error", Json.str r.Error)]))

/-- The call `json.Marshal(results)` for a non-nil `[]PingResult`. It has no failing
case for this type, so the `err != nil` branch of the source is never taken. -/
def Marshal (results : List PingResult) : String :=
  String.mk (render (Json.arr (results.map PingResult.toJson)))

/-- A `context.Context` as the source builds it: the background context or a
child with a timeout (a `time.Duration`, in nanoseconds). -/
inductive Context where
  | background
  | withTimeout (parent : Context) (d : Int)
  deriving DecidableEq, Repr

/-- The nanoseconds in `time.Millisecond`. -/
def Millisecond : Int := 1000000

/-- The method `Duration.Milliseconds`: integer division of the nanosecond count,
which in Go truncates toward zero. -/
def Milliseconds (d : Int) : Int :=
  Int.tdiv d 1000000

/-- A value of `net.OpError`, the error type `DialContext` returns; `Source` and
`Addr` hold the text of the address when present. -/
structure OpError where
  Op : String
  Net : String
  Source : Option String
  Addr : Option String
  Err : String
  deriving DecidableEq, Repr

/-- The method `(*net.OpError).Error`. -/
def OpError.Error (e : OpError) : String :=
  let s := e.Op
  let s := if e.Net ≠ "" then s ++ " " ++ e.Net else s
  let s := match e.Source with
    | some src => s ++ " " ++ src
    | none => s
  let s := match e.Addr with
    | some a => (if e.Source.isSome then s ++ "->" else s ++ " ") ++ a
    | none => s
  s ++ ": " ++ e.Err

/-- What a dial comes back with: an error, or a connection together with the
monotonic clock readings (nanoseconds) at the moment the connection was
established and at the later moment `time.Since` runs, after `conn.Close()`. -/
inductive DialOutcome where
  | failed (err : OpError)
  | connected (established : Int) (afterClose : Int)
  deriving DecidableEq, Repr

/-- What one probe observes of the outside world: the clock reading of
`time.Now()` on line 190 and the answer of
`(&net.Dialer{Timeout: timeout}).DialContext(pingCtx, network, address)`. -/
structure Probe where
  start : Int
  dial : Int → Context → String → String → DialOutcome

/-- The function `tcpPing(ctx, hostPort, timeout)` (nb4a.go, lines 179-213). -/
def tcpPing (p : Probe) (ctx : Context) (hostPort : String) (timeout : Int) : PingResult :=
  let result : PingResult := { Host := hostPort, PingMs := 0, Success := false, Error := "" }
  let pingCtx := Context.withTimeout ctx timeout
  let start := p.start
  match p.dial timeout pingCtx "tcp" hostPort with
  | DialOutcome.failed err => { result with Error := err.Error }
  | DialOutcome.connected _ afterClose =>
    let duration := afterClose - start
    { result with PingMs := Milliseconds duration, Success := true }

/-- The outside world of one call of `ParallelPing`: what the goroutine started
for each index observes, and the order in which the scheduler lets the
started goroutines store their results before `wg.Wait()` returns. -/
structure World where
  probe : Nat → Probe
  schedule : List (Nat × String) → List (Nat × String)

/-- A 64-bit two's complement value reduced to `int32`. -/
def wrapInt32 (x : Int) : Int :=
  (x + 2147483648) % 4294967296 - 2147483648

/-- The `timeoutMs` in force after lines 145-147. -/
def effectiveTimeoutMs (timeoutMs : Int) : Int :=
  if timeoutMs ≤ 0 then 3000 else timeoutMs

/-- The per-target timeout handed to `tcpPing` on line 161,
`time.Duration(timeoutMs) * time.Millisecond`. -/
def perTargetTimeout (timeoutMs : Int) : Int :=
  effectiveTimeoutMs timeoutMs * Millisecond

/-- The duration of the batch context on line 153,
`time.Duration(timeoutMs+1000) * time.Millisecond`: the sum is an `int32` sum. -/
def batchTimeout (timeoutMs : Int) : Int :=
  wrapInt32 (effectiveTimeoutMs timeoutMs + 1000) * Millisecond

/-- The zero value of `PingResult`, which `make` fills the slice with. -/
def PingResult.zero : PingResult :=
  { Host := "", PingMs := 0, Success := false, Error := "" }

/-- The body of one goroutine (line 161): store the probe's result in the slot
of its index. -/
def storeResult (w : World) (ctx : Context) (timeout : Int)
    (results : List PingResult) (task : Nat × String) : List PingResult :=
  results.set task.1 (tcpPing (w.probe task.1) ctx task.2 timeout)

/-- The slice `results` when `wg.Wait()` returns (lines 149-166). -/
def pingAll (w : World) (hostPorts : List String) (timeoutMs : Int) : List PingResult :=
  let results := List.replicate hostPorts.length PingResult.zero
  let ctx := Context.withTimeout Context.background (batchTimeout timeoutMs)
  (w.schedule hostPorts.enum).foldl (storeResult w ctx (perTargetTimeout timeoutMs)) results

/-- The function `ParallelPing(addresses, timeoutMs)` (nb4a.go, lines 134-176), together with
the goroutines it started, as pairs of index and address in the order of the
`go` statements. -/
def ParallelPing.run (w : World) (addresses : String) (timeoutMs : Int) :
    String × List (Nat × String) :=
  match Unmarshal addresses with
  | .error _ => ("[]", [])
  | .ok hostPorts => (Marshal (pingAll w hostPorts timeoutMs), hostPorts.enum)

/-- The text `ParallelPing(addresses, timeoutMs)` returns. -/
def ParallelPing (w : World) (addresses : String) (timeoutMs : Int) : String :=
  (ParallelPing.run w addresses timeoutMs).1

/-- The invariant of a `PingResult`: a success has a non-negative `ping_ms` and
no `error` member in its encoded object; a failure has `ping_ms` zero and an
`error` member holding a non-empty string. -/
def PingResult.Consistent (r : PingResult) : Prop :=
  (r.Success = true → 0 ≤ r.PingMs ∧ r.toJson.field "error" = none) ∧
  (r.Success = false →
    r.PingMs = 0 ∧ ∃ e : String, e ≠ "" ∧ r.toJson.field "error" = some (Json.str e))

/-- The monotonic clock does not run backwards: a connection is established
no earlier than the probe started, and `time.Since` runs no earlier than
that. -/
def Probe.Monotone (p : Probe) : Prop :=
  ∀ (timeout : Int) (ctx : Context) (network address : String) (established afterClose : Int),
    p.dial timeout ctx network address = DialOutcome.connected established afterClose →
      p.start ≤ established ∧ established ≤ afterClose

/-- Every goroutine the loop started stores its result exactly once before
`wg.Wait()` returns: the scheduler only reorders them. -/
def World.Fair (w : World) : Prop :=
  ∀ tasks : List (Nat × String), (w.schedule tasks).Perm tasks

/-- A probe that starts at clock reading 0, connects after 999999 ns and
reads the clock again 1 ns later, once the connection is closed. -/
def probeFast : Probe :=
  { start := 0, dial := fun _ _ _ _ => DialOutcome.connected 999999 1000000 }

/-- A probe whose dial fails: `missing address` for the empty address,
`connection refused` for any other. -/
def probeDown : Probe :=
  { start := 0,
    dial := fun _ _ network address =>
      if address = "" then
        DialOutcome.failed
          { Op := "dial", Net := network, Source := none, Addr := none, Err := "missing address" }
      else
        DialOutcome.failed
          { Op := "dial", Net := network, Source := none, Addr := some address,
            Err := "connect: connection refused" } }

/-- A probe that starts at clock reading 0 and whose dial takes exactly the
timeout the dialer was given: the per-target timeout shows as `ping_ms`. -/
def probeEcho : Probe :=
  { start := 0, dial := fun timeout _ _ _ => DialOutcome.connected timeout timeout }

/-- A world in which every probe is `probeEcho`, the goroutines finishing in
the order they were started in. -/
def worldEcho : World :=
  { probe := fun _ => probeEcho, schedule := fun tasks => tasks }

/-- A world in which every dial fails and the goroutines finish in the
reverse of the order they were started in. -/
def worldDown : World :=
  { probe := fun _ => probeDown, schedule := List.reverse }

/-- A world in which the goroutines with an even index connect and the others
fail, finishing in the reverse of the order they were started in. -/
def worldMixed : World :=
  { probe := fun i => if i % 2 = 0 then probeFast else probeDown, schedule := List.reverse }

/-! ## Theorems, part 1: `sendFdToProtect` -/

/-- Two different failing `return`s never build the same message, whatever
the wrapped errno texts are. -/
theorem message_ne (m m' : Failure) (e e' : String) (h : m ≠ m') :
    m.message e ≠ m'.message e' := by
  intro heq
  have hd := congrArg String.data heq
  cases m <;> cases m' <;> first
    | exact h rfl
    | (simp [Failure.message, String.data_append] at hd)

/-- The error and the trace of a run, by the first failing step. -/
theorem sendFdToProtect_cases (k : Kernel) (fd : Int) (path : String) :
    (∃ e, k.socket = .error e ∧
      sendFdToProtect k fd path = (some (Failure.message .socketCreate e), [Syscall.socket none])) ∨
    (∃ s, k.socket = .ok s ∧
      ((∃ e, k.connect s path = some e ∧
          sendFdToProtect k fd path =
            (some (Failure.message .connect e), (fullHandshake s fd path).take 4 ++ [Syscall.close s])) ∨
       (k.connect s path = none ∧
        ((∃ e, k.sendmsg s [] [fd] 0 = some e ∧
            sendFdToProtect k fd path =
              (some (Failure.message .send e), (fullHandshake s fd path).take 5 ++ [Syscall.close s])) ∨
         (k.sendmsg s [] [fd] 0 = none ∧
          ((∃ e, k.read s 1 = .error e ∧
              sendFdToProtect k fd path =
                (some (Failure.message .receive e), fullHandshake s fd path)) ∨
           (∃ n, k.read s 1 = .ok n ∧ n ≠ 1 ∧
              sendFdToProtect k fd path =
                (some (Failure.message .ackLength ""), fullHandshake s fd path)) ∨
           (k.read s 1 = .ok 1 ∧
              sendFdToProtect k fd path = (none, fullHandshake s fd path)))))))) := by
  unfold sendFdToProtect
  cases hs : k.socket with
  | error e => left; exact ⟨e, rfl, rfl⟩
  | ok s =>
    right
    refine ⟨s, rfl, ?_⟩
    cases hc : k.connect s path with
    | some e => left; exact ⟨e, rfl, by simp [hc, Failure.message, fullHandshake]⟩
    | none =>
      right
      refine ⟨rfl, ?_⟩
      cases hm : k.sendmsg s [] [fd] 0 with
      | some e => left; exact ⟨e, rfl, by simp [hc, hm, Failure.message, fullHandshake]⟩
      | none =>
        right
        refine ⟨rfl, ?_⟩
        cases hr : k.read s 1 with
        | error e => left; exact ⟨e, rfl, by simp [hc, hm, hr, Failure.message, fullHandshake]⟩
        | ok n =>
          right
          by_cases hn : n = 1
          · right; subst hn; exact ⟨rfl, by simp [hc, hm, hr, fullHandshake]⟩
          · left; exact ⟨n, rfl, hn, by simp [hc, hm, hr, hn, Failure.message, fullHandshake]⟩



/-- C8: `sendFdToProtect` returns nil exactly when socket creation, connect,
the send of `fd` as ancillary rights with an empty payload, and the read all
succeed and the read returns one byte; a successful run issues exactly the
calls socket, setsockopt, setsockopt, connect, sendmsg, read, close, and the
calls of every run are a subsequence of these, in this order. -/
theorem sendFdToProtect_nil_iff (k : Kernel) (fd : Int) (path : String) :
    ((sendFdToProtect k fd path).1 = none ↔
      ∃ s, k.socket = .ok s ∧ k.connect s path = none ∧
        k.sendmsg s [] [fd] 0 = none ∧ k.read s 1 = .ok 1) ∧
    ((sendFdToProtect k fd path).1 = none →
      ∃ s, k.socket = .ok s ∧ (sendFdToProtect k fd path).2 = fullHandshake s fd path) ∧
    List.Sublist ((sendFdToProtect k fd path).2.map Syscall.kind)
      [CallKind.socket, CallKind.setsockopt, CallKind.setsockopt, CallKind.connect,
        CallKind.sendmsg, CallKind.read, CallKind.close] := by
  rcases sendFdToProtect_cases k fd path with
    ⟨e, hs, hrun⟩ | ⟨s, hs, ⟨e, hc, hrun⟩ | ⟨hc, ⟨e, hm, hrun⟩ | ⟨hm, ⟨e, hr, hrun⟩ | ⟨n, hr, hn, hrun⟩ | ⟨hr, hrun⟩⟩⟩⟩
  · rw [hrun]
    refine ⟨⟨fun h => by simp at h, fun ⟨s, h, _⟩ => by simp [hs] at h⟩, fun h => by simp at h, ?_⟩
    simp only [List.map, Syscall.kind]
    decide
  · rw [hrun]
    refine ⟨⟨fun h => by simp at h, fun ⟨s', h, h', _⟩ => ?_⟩, fun h => by simp at h, ?_⟩
    · rw [hs] at h; cases h; simp [hc] at h'
    · simp only [fullHandshake, List.take, List.map, Syscall.kind, List.cons_append, List.nil_append]
      decide
  · rw [hrun]
    refine ⟨⟨fun h => by simp at h, fun ⟨s', h, _, h', _⟩ => ?_⟩, fun h => by simp at h, ?_⟩
    · rw [hs] at h; cases h; simp [hm] at h'
    · simp only [fullHandshake, List.take, List.map, Syscall.kind, List.cons_append, List.nil_append]
      decide
  · rw [hrun]
    refine ⟨⟨fun h => by simp at h, fun ⟨s', h, _, _, h'⟩ => ?_⟩, fun h => by simp at h, ?_⟩
    · rw [hs] at h; cases h; simp [hr] at h'
    · simp only [fullHandshake, List.map, Syscall.kind]
      decide
  · rw [hrun]
    refine ⟨⟨fun h => by simp at h, fun ⟨s', h, _, _, h'⟩ => ?_⟩, fun h => by simp at h, ?_⟩
    · rw [hs] at h; cases h; rw [hr] at h'; cases h'; exact (hn rfl).elim
    · simp only [fullHandshake, List.map, Syscall.kind]
      decide
  · rw [hrun]
    refine ⟨⟨fun _ => ⟨s, hs, hc, hm, hr⟩, fun _ => rfl⟩, fun _ => ⟨s, hs, rfl⟩, ?_⟩
    simp only [fullHandshake, List.map, Syscall.kind]
    decide

/-- C8, at a kernel on which every step succeeds: the handshake returns nil
after the seven calls of a complete handshake on descriptor 9. -/
theorem sendFdToProtect_nil_iff_witness :
    (sendFdToProtect kernelOk 7 "/protect").1 = none ∧
    ∃ s, kernelOk.socket = .ok s ∧
      (sendFdToProtect kernelOk 7 "/protect").2 = fullHandshake s 7 "/protect" :=
  have h := (sendFdToProtect_nil_iff kernelOk 7 "/protect").1.mpr ⟨9, rfl, rfl, rfl, rfl⟩
  ⟨h, (sendFdToProtect_nil_iff kernelOk 7 "/protect").2.1 h⟩

/-- A run whose first failing test of the source is `m` returns the error
built at that `return`, which is the error of no other `return`; it issues the
calls up to that step and the close of the socket, nothing after and nothing
twice. -/
theorem sendFdToProtect_firstFailure (k : Kernel) (fd : Int) (path : String) (m : Failure)
    (h : firstFailure k fd path = some m) :
    (∃ e, (sendFdToProtect k fd path).1 = some (m.message e)) ∧
    (∀ m' e', m' ≠ m → (sendFdToProtect k fd path).1 ≠ some (m'.message e')) ∧
    (match m with
      | Failure.socketCreate => (sendFdToProtect k fd path).2 = [Syscall.socket none]
      | Failure.connect => ∃ s, k.socket = .ok s ∧
          (sendFdToProtect k fd path).2 =
            [ Syscall.socket (some s),
              Syscall.setsockoptTimeval s SockOpt.SO_RCVTIMEO { Sec := 0, Usec := 100000 },
              Syscall.setsockoptTimeval s SockOpt.SO_SNDTIMEO { Sec := 0, Usec := 100000 },
              Syscall.connect s path,
              Syscall.close s ]
      | Failure.send => ∃ s, k.socket = .ok s ∧
          (sendFdToProtect k fd path).2 =
            [ Syscall.socket (some s),
              Syscall.setsockoptTimeval s SockOpt.SO_RCVTIMEO { Sec := 0, Usec := 100000 },
              Syscall.setsockoptTimeval s SockOpt.SO_SNDTIMEO { Sec := 0, Usec := 100000 },
              Syscall.connect s path,
              Syscall.sendmsg s [] [fd] 0,
              Syscall.close s ]
      | Failure.receive => ∃ s, k.socket = .ok s ∧
          (sendFdToProtect k fd path).2 = fullHandshake s fd path
      | Failure.ackLength => ∃ s, k.socket = .ok s ∧
          (sendFdToProtect k fd path).2 = fullHandshake s fd path) := by
  have key : ∀ e, (sendFdToProtect k fd path).1 = some (m.message e) →
      (∃ e, (sendFdToProtect k fd path).1 = some (m.message e)) ∧
      (∀ m' e', m' ≠ m → (sendFdToProtect k fd path).1 ≠ some (m'.message e')) := by
    intro e he
    refine ⟨⟨e, he⟩, fun m' e' hne heq => ?_⟩
    rw [he] at heq
    exact message_ne m m' e e' (Ne.symm hne) (Option.some.inj heq)
  rcases sendFdToProtect_cases k fd path with
    ⟨e, hs, hrun⟩ | ⟨s, hs, ⟨e, hc, hrun⟩ | ⟨hc, ⟨e, hm, hrun⟩ | ⟨hm, ⟨e, hr, hrun⟩ | ⟨n, hr, hn, hrun⟩ | ⟨hr, hrun⟩⟩⟩⟩
  · have hm' : m = Failure.socketCreate := by
      simp [firstFailure, hs] at h; exact h.symm
    subst hm'
    obtain ⟨a, b⟩ := key e (by rw [hrun])
    exact ⟨a, b, by rw [hrun]⟩
  · have hm' : m = Failure.connect := by
      simp [firstFailure, hs, hc] at h; exact h.symm
    subst hm'
    obtain ⟨a, b⟩ := key e (by rw [hrun])
    exact ⟨a, b, s, hs, by rw [hrun]; rfl⟩
  · have hm' : m = Failure.send := by
      simp [firstFailure, hs, hc, hm] at h; exact h.symm
    subst hm'
    obtain ⟨a, b⟩ := key e (by rw [hrun])
    exact ⟨a, b, s, hs, by rw [hrun]; rfl⟩
  · have hm' : m = Failure.receive := by
      simp [firstFailure, hs, hc, hm, hr] at h; exact h.symm
    subst hm'
    obtain ⟨a, b⟩ := key e (by rw [hrun])
    exact ⟨a, b, s, hs, by rw [hrun]⟩
  · have hm' : m = Failure.ackLength := by
      simp [firstFailure, hs, hc, hm, hr, hn] at h; exact h.symm
    subst hm'
    obtain ⟨a, b⟩ := key "" (by rw [hrun])
    exact ⟨a, b, s, hs, by rw [hrun]⟩
  · simp [firstFailure, hs, hc, hm, hr] at h

/-- A run on which none of the tests of the source fires returns nil after the
calls of a complete handshake. -/
theorem sendFdToProtect_no_failure (k : Kernel) (fd : Int) (path : String)
    (h : firstFailure k fd path = none) :
    (sendFdToProtect k fd path).1 = none ∧
    ∃ s, k.socket = .ok s ∧ (sendFdToProtect k fd path).2 = fullHandshake s fd path := by
  rcases sendFdToProtect_cases k fd path with
    ⟨e, hs, hrun⟩ | ⟨s, hs, ⟨e, hc, hrun⟩ | ⟨hc, ⟨e, hm, hrun⟩ | ⟨hm, ⟨e, hr, hrun⟩ | ⟨n, hr, hn, hrun⟩ | ⟨hr, hrun⟩⟩⟩⟩
  · simp [firstFailure, hs] at h
  · simp [firstFailure, hs, hc] at h
  · simp [firstFailure, hs, hc, hm] at h
  · simp [firstFailure, hs, hc, hm, hr] at h
  · simp [firstFailure, hs, hc, hm, hr, hn] at h
  · rw [hrun]; exact ⟨rfl, s, hs, rfl⟩

/-- The tests of the source against the modes of the specification, for a
kernel whose `read` answers for a given peer: either no test fires, and the
peer sent one byte or more than one; or the test `c` fires, and the mode is
that of `c`, with the test `n != 1` falling under mode 4. -/
theorem firstFailure_withPeer (k : Kernel) (peer : PeerAnswer) (fd : Int) (path : String) :
    (firstFailure (kernelWithPeer k peer) fd path = none ∧
      (specFailure k peer fd path = none ∨
        specFailure k peer fd path = some Failure.ackLength)) ∨
    (∃ c, firstFailure (kernelWithPeer k peer) fd path = some c ∧
      specFailure k peer fd path
        = some (if c = Failure.ackLength then Failure.receive else c)) := by
  cases hs : k.socket with
  | error e =>
    right
    exact ⟨Failure.socketCreate, by simp [firstFailure, kernelWithPeer, hs],
      by simp [specFailure, hs]⟩
  | ok s =>
    cases hc : k.connect s path with
    | some e =>
      right
      exact ⟨Failure.connect, by simp [firstFailure, kernelWithPeer, hs, hc],
        by simp [specFailure, hs, hc]⟩
    | none =>
      cases hm : k.sendmsg s [] [fd] 0 with
      | some e =>
        right
        exact ⟨Failure.send, by simp [firstFailure, kernelWithPeer, hs, hc, hm],
          by simp [specFailure, hs, hc, hm]⟩
      | none =>
        cases peer with
        | ack first more =>
          left
          have hmin : ((min 1 (1 + more.length) : Nat) : Int) = 1 := by
            have : min 1 (1 + more.length) = 1 := by omega
            rw [this]; rfl
          refine ⟨by simp [firstFailure, kernelWithPeer, readAnswer, hs, hc, hm, hmin], ?_⟩
          cases more with
          | nil => left; simp [specFailure, hs, hc, hm]
          | cons b bs => right; simp [specFailure, hs, hc, hm]
        | closed =>
          right
          exact ⟨Failure.ackLength,
            by simp [firstFailure, kernelWithPeer, readAnswer, hs, hc, hm],
            by simp [specFailure, hs, hc, hm]⟩
        | reset =>
          right
          exact ⟨Failure.receive,
            by simp [firstFailure, kernelWithPeer, readAnswer, hs, hc, hm],
            by simp [specFailure, hs, hc, hm]⟩
        | silent =>
          right
          exact ⟨Failure.receive,
            by simp [firstFailure, kernelWithPeer, readAnswer, hs, hc, hm],
            by simp [specFailure, hs, hc, hm]⟩

/-- C9, as stated, fails: when the peer acknowledges with two bytes, which is
mode 5 of the claim ("ack present but not exactly one byte"), the read takes
one byte into its one-byte buffer and `sendFdToProtect` returns nil: the mode
is not reported at all. -/
theorem sendFdToProtect_long_ack_returns_nil :
    specFailure kernelOk (PeerAnswer.ack 1 [1]) 7 "/protect" = some Failure.ackLength ∧
    (kernelWithPeer kernelOk (PeerAnswer.ack 1 [1])).read 9 1 = .ok 1 ∧
    (sendFdToProtect (kernelWithPeer kernelOk (PeerAnswer.ack 1 [1])) 7 "/protect").1 = none := by
  refine ⟨by decide, by rfl, by decide⟩

/-- C9, amended: a run in one of the modes 1 to 4 (socket creation failed,
connect failed, send failed, read failed or peer closed before the ack)
returns an error that no run in another mode returns; it issues the calls up
to the failing step and the close of the socket, nothing after and nothing
twice, so a connect failure issues no send and no read. An acknowledgment of
more than one byte is not reported: the run returns nil after a complete
handshake, as it does for one byte. -/
theorem sendFdToProtect_failure_modes (k : Kernel) (peer : PeerAnswer) (fd : Int)
    (path : String) :
    (∀ m, specFailure k peer fd path = some m → m ≠ Failure.ackLength →
      (∃ err, (sendFdToProtect (kernelWithPeer k peer) fd path).1 = some err ∧
        ∀ (k' : Kernel) (peer' : PeerAnswer) (fd' : Int) (path' : String) (m' : Failure),
          specFailure k' peer' fd' path' = some m' → m' ≠ m →
            (sendFdToProtect (kernelWithPeer k' peer') fd' path').1 ≠ some err) ∧
      (match m with
        | Failure.socketCreate =>
          (sendFdToProtect (kernelWithPeer k peer) fd path).2 = [Syscall.socket none]
        | Failure.connect => ∃ s, k.socket = .ok s ∧
          (sendFdToProtect (kernelWithPeer k peer) fd path).2 =
            [ Syscall.socket (some s),
              Syscall.setsockoptTimeval s SockOpt.SO_RCVTIMEO { Sec := 0, Usec := 100000 },
              Syscall.setsockoptTimeval s SockOpt.SO_SNDTIMEO { Sec := 0, Usec := 100000 },
              Syscall.connect s path,
              Syscall.close s ]
        | Failure.send => ∃ s, k.socket = .ok s ∧
          (sendFdToProtect (kernelWithPeer k peer) fd path).2 =
            [ Syscall.socket (some s),
              Syscall.setsockoptTimeval s SockOpt.SO_RCVTIMEO { Sec := 0, Usec := 100000 },
              Syscall.setsockoptTimeval s SockOpt.SO_SNDTIMEO { Sec := 0, Usec := 100000 },
              Syscall.connect s path,
              Syscall.sendmsg s [] [fd] 0,
              Syscall.close s ]
        | Failure.receive => ∃ s, k.socket = .ok s ∧
          (sendFdToProtect (kernelWithPeer k peer) fd path).2 = fullHandshake s fd path
        | Failure.ackLength => True)) ∧
    (specFailure k peer fd path = some Failure.ackLength →
      (sendFdToProtect (kernelWithPeer k peer) fd path).1 = none ∧
      ∃ s, k.socket = .ok s ∧
        (sendFdToProtect (kernelWithPeer k peer) fd path).2 = fullHandshake s fd path) ∧
    (specFailure k peer fd path = none →
      (sendFdToProtect (kernelWithPeer k peer) fd path).1 = none) := by
  have hsock : ∀ s, (kernelWithPeer k peer).socket = .ok s → k.socket = .ok s := fun s h => h
  refine ⟨?_, ?_, ?_⟩
  · intro m hm hne
    rcases firstFailure_withPeer k peer fd path with ⟨_, h | h⟩ | ⟨c, hc, hsp⟩
    · rw [h] at hm; cases hm
    · rw [h] at hm; cases hm; exact absurd rfl hne
    · rw [hsp] at hm
      have hmc : m = if c = Failure.ackLength then Failure.receive else c :=
        (Option.some.inj hm).symm
      obtain ⟨⟨e, he⟩, _, htrace⟩ :=
        sendFdToProtect_firstFailure (kernelWithPeer k peer) fd path c hc
      refine ⟨⟨c.message e, he, ?_⟩, ?_⟩
      · intro k' peer' fd' path' m' hm' hne' heq
        rcases firstFailure_withPeer k' peer' fd' path' with ⟨h0, _⟩ | ⟨c', hc', hsp'⟩
        · rw [(sendFdToProtect_no_failure _ fd' path' h0).1] at heq; cases heq
        · rw [hsp'] at hm'
          have hmc' : m' = if c' = Failure.ackLength then Failure.receive else c' :=
            (Option.some.inj hm').symm
          obtain ⟨⟨e', he'⟩, _, _⟩ :=
            sendFdToProtect_firstFailure (kernelWithPeer k' peer') fd' path' c' hc'
          rw [he'] at heq
          have hcc : c' ≠ c := by
            intro hcc; subst hcc; exact hne' (hmc'.trans hmc.symm)
          exact message_ne c' c e' e hcc (Option.some.inj heq)
      · cases c with
        | socketCreate => subst hmc; exact htrace
        | connect =>
          subst hmc
          obtain ⟨s, hs, ht⟩ := htrace
          exact ⟨s, hsock s hs, ht⟩
        | send =>
          subst hmc
          obtain ⟨s, hs, ht⟩ := htrace
          exact ⟨s, hsock s hs, ht⟩
        | receive =>
          subst hmc
          obtain ⟨s, hs, ht⟩ := htrace
          exact ⟨s, hsock s hs, ht⟩
        | ackLength =>
          subst hmc
          obtain ⟨s, hs, ht⟩ := htrace
          exact ⟨s, hsock s hs, ht⟩
  · intro h
    rcases firstFailure_withPeer k peer fd path with ⟨h0, _⟩ | ⟨c, _, hsp⟩
    · obtain ⟨h1, s, hs, ht⟩ := sendFdToProtect_no_failure _ fd path h0
      exact ⟨h1, s, hsock s hs, ht⟩
    · rw [hsp] at h
      have := Option.some.inj h
      split at this <;> simp_all
  · intro h
    rcases firstFailure_withPeer k peer fd path with ⟨h0, _⟩ | ⟨c, _, hsp⟩
    · exact (sendFdToProtect_no_failure _ fd path h0).1
    · rw [hsp] at h; cases h

/-- C9, amended, at a kernel that refuses the connect: an error comes back and
the calls are socket, setsockopt, setsockopt, connect, close; and at a peer
that acknowledges with two bytes: nil comes back. -/
theorem sendFdToProtect_failure_modes_witness :
    specFailure kernelRefused PeerAnswer.closed 7 "/protect" = some Failure.connect ∧
    (∃ err, (sendFdToProtect (kernelWithPeer kernelRefused PeerAnswer.closed) 7 "/protect").1
      = some err) ∧
    (∃ s, kernelRefused.socket = .ok s ∧
      (sendFdToProtect (kernelWithPeer kernelRefused PeerAnswer.closed) 7 "/protect").2 =
        [ Syscall.socket (some s),
          Syscall.setsockoptTimeval s SockOpt.SO_RCVTIMEO { Sec := 0, Usec := 100000 },
          Syscall.setsockoptTimeval s SockOpt.SO_SNDTIMEO { Sec := 0, Usec := 100000 },
          Syscall.connect s "/protect",
          Syscall.close s ]) ∧
    (sendFdToProtect (kernelWithPeer kernelOk (PeerAnswer.ack 1 [1])) 7 "/protect").1 = none :=
  have h := (sendFdToProtect_failure_modes kernelRefused PeerAnswer.closed 7 "/protect").1
    Failure.connect (by decide) (by decide)
  have h2 := (sendFdToProtect_failure_modes kernelOk (PeerAnswer.ack 1 [1]) 7 "/protect").2.1
    (by decide)
  ⟨by decide, h.1.elim fun err he => ⟨err, he.1⟩, h.2, h2.1⟩

/-- C10: when the socket was created, as descriptor `s`, the trace of every
exit path ends with the close of `s`, holds that close once and no other
close, so a descriptor `fd` that was open (and so differs from the fresh `s`)
is not closed and the descriptor table is the one before the call; when
socket creation fails the only call is the failed `socket` and the table is
unchanged. -/
theorem sendFdToProtect_closes_socket (k : Kernel) (fd : Int) (path : String) :
    (∀ s, k.socket = .ok s →
      (sendFdToProtect k fd path).2.getLast? = some (Syscall.close s) ∧
      (sendFdToProtect k fd path).2.count (Syscall.close s) = 1 ∧
      (∀ x, Syscall.close x ∈ (sendFdToProtect k fd path).2 → x = s) ∧
      (∀ fds : List Int, fd ∈ fds → s ∉ fds →
        Syscall.close fd ∉ (sendFdToProtect k fd path).2 ∧
        descriptorsAfter fds (sendFdToProtect k fd path).2 = fds)) ∧
    (∀ e, k.socket = .error e →
      (sendFdToProtect k fd path).2 = [Syscall.socket none] ∧
      ∀ fds : List Int, descriptorsAfter fds (sendFdToProtect k fd path).2 = fds) := by
  constructor
  · intro s hs
    have hall : ∀ t : List Syscall,
        (t = (fullHandshake s fd path).take 4 ++ [Syscall.close s] ∨
         t = (fullHandshake s fd path).take 5 ++ [Syscall.close s] ∨
         t = fullHandshake s fd path) →
        t.getLast? = some (Syscall.close s) ∧ t.count (Syscall.close s) = 1 ∧
        (∀ x, Syscall.close x ∈ t → x = s) ∧
        (∀ fds : List Int, fd ∈ fds → s ∉ fds →
          Syscall.close fd ∉ t ∧ descriptorsAfter fds t = fds) := by
      intro t ht
      have hfd : ∀ fds : List Int, fd ∈ fds → s ∉ fds → fd ≠ s := by
        intro fds h1 h2 h3; exact h2 (h3 ▸ h1)
      rcases ht with rfl | rfl | rfl
      · refine ⟨by simp [fullHandshake], by simp [fullHandshake, List.count_cons], ?_, ?_⟩
        · intro x hx; simpa [fullHandshake] using hx
        · intro fds h1 h2
          refine ⟨by simpa [fullHandshake] using hfd fds h1 h2, ?_⟩
          simp [fullHandshake, descriptorsAfter]
      · refine ⟨by simp [fullHandshake], by simp [fullHandshake, List.count_cons], ?_, ?_⟩
        · intro x hx; simpa [fullHandshake] using hx
        · intro fds h1 h2
          refine ⟨by simpa [fullHandshake] using hfd fds h1 h2, ?_⟩
          simp [fullHandshake, descriptorsAfter]
      · refine ⟨by simp [fullHandshake], by simp [fullHandshake, List.count_cons], ?_, ?_⟩
        · intro x hx; simpa [fullHandshake] using hx
        · intro fds h1 h2
          refine ⟨by simpa [fullHandshake] using hfd fds h1 h2, ?_⟩
          simp [fullHandshake, descriptorsAfter]
    apply hall
    rcases sendFdToProtect_cases k fd path with
      ⟨e, hs', _⟩ | ⟨s', hs', ⟨e, hc, hrun⟩ | ⟨hc, ⟨e, hm, hrun⟩ | ⟨hm, ⟨e, hr, hrun⟩ | ⟨n, hr, hn, hrun⟩ | ⟨hr, hrun⟩⟩⟩⟩
    · rw [hs] at hs'; cases hs'
    all_goals (rw [hs] at hs'; cases hs'; rw [hrun]; simp)
  · intro e he
    have hrun : sendFdToProtect k fd path
        = (some ("failed to create unix socket: " ++ e), [Syscall.socket none]) := by
      unfold sendFdToProtect; rw [he]
    rw [hrun]
    exact ⟨rfl, fun fds => rfl⟩

/-- C10, at a kernel whose read times out, with the caller's descriptor 7 open
and the fresh socket 9: the socket is closed last and once, descriptor 7 is
not closed, and the descriptor table is as before. -/
theorem sendFdToProtect_closes_socket_witness :
    kernelReadTimeout.socket = .ok 9 ∧
    (sendFdToProtect kernelReadTimeout 7 "/protect").2.getLast? = some (Syscall.close 9) ∧
    (sendFdToProtect kernelReadTimeout 7 "/protect").2.count (Syscall.close 9) = 1 ∧
    Syscall.close 7 ∉ (sendFdToProtect kernelReadTimeout 7 "/protect").2 ∧
    descriptorsAfter [0, 1, 2, 7] (sendFdToProtect kernelReadTimeout 7 "/protect").2 = [0, 1, 2, 7] :=
  have h := (sendFdToProtect_closes_socket kernelReadTimeout 7 "/protect").1 9 rfl
  ⟨rfl, h.1, h.2.1, (h.2.2.2 [0, 1, 2, 7] (by decide) (by decide)).1,
    (h.2.2.2 [0, 1, 2, 7] (by decide) (by decide)).2⟩

/-! ## Theorems, part 2: the text `json.Marshal` writes is read back -/

/-- A hexadecimal digit is read back as its value. -/
theorem hexVal_hexDigit (k : Nat) (hk : k < 16) : hexVal (hexDigit k) = some k := by
  interval_cases k <;> decide

/-- A value below the surrogate range that is pending is written as its own
character. -/
theorem decodeFrom_some (n : Nat) (hn : n < 0xD800) (items : List StrItem) :
    decodeFrom (some n) items = Char.ofNat n :: decodeFrom none items := by
  have hu : unitChar n = Char.ofNat n := by
    unfold unitChar
    rw [if_neg (by omega)]
  cases items with
  | nil => simp [decodeFrom, hu]
  | cons it rest =>
    cases it with
    | char c => simp [decodeFrom, hu]
    | unit lo =>
      have : ¬ (0xD800 ≤ n ∧ n < 0xDC00 ∧ 0xDC00 ≤ lo ∧ lo < 0xE000) := by omega
      simp only [decodeFrom, if_neg this, hu]


/-- Scanning one raw character that needs no escape. -/
theorem scanItems_raw (c : Char) (tail : List Char) (h1 : c ≠ '"') (h2 : c ≠ '\\')
    (h3 : ¬ c.toNat < 32) :
    scanItems (c :: tail) = (scanItems tail).map (fun p => (StrItem.char c :: p.1, p.2)) := by
  rw [scanItems.eq_def]
  simp only [if_neg h1, if_neg h2, if_neg h3]
  cases scanItems tail <;> rfl

/-- Scanning a two-character escape. -/
theorem scanItems_short (e ch : Char) (tail : List Char) (hu : e ≠ 'u')
    (he : unescape e = some ch) :
    scanItems ('\\' :: e :: tail) = (scanItems tail).map (fun p => (StrItem.char ch :: p.1, p.2)) := by
  rw [scanItems.eq_def]
  have h1 : ¬ ('\\' : Char) = '"' := by decide
  simp only [if_neg h1, if_true, if_neg hu, he]
  cases scanItems tail <;> rfl

/-- Scanning a `\uXXXX` escape. -/
theorem scanItems_unit (h1 h2 h3 h4 : Char) (x y z w : Nat) (tail : List Char)
    (e1 : hexVal h1 = some x) (e2 : hexVal h2 = some y) (e3 : hexVal h3 = some z)
    (e4 : hexVal h4 = some w) :
    scanItems ('\\' :: 'u' :: h1 :: h2 :: h3 :: h4 :: tail)
      = (scanItems tail).map
          (fun p => (StrItem.unit (((x * 16 + y) * 16 + z) * 16 + w) :: p.1, p.2)) := by
  rw [scanItems.eq_def]
  have hq : ¬ ('\\' : Char) = '"' := by decide
  simp only [if_neg hq, if_true, e1, e2, e3, e4]
  cases scanItems tail <;> rfl

/-- What `json.Marshal` writes for one character is scanned as one piece: the
character itself, or its code as a `\uXXXX` value. -/
theorem scanItems_escapeChar (c : Char) (tail : List Char) :
    scanItems (escapeChar c ++ tail)
        = (scanItems tail).map (fun p => (StrItem.char c :: p.1, p.2)) ∨
    (c.toNat < 0xD800 ∧
      scanItems (escapeChar c ++ tail)
        = (scanItems tail).map (fun p => (StrItem.unit c.toNat :: p.1, p.2))) := by
  unfold escapeChar
  split_ifs with a1 a2 a3 a4 a5 a6 a7 a8 a9
  · left
    rcases a1 with rfl | rfl
    · exact scanItems_short '"' '"' tail (by decide) (by decide)
    · exact scanItems_short '\\' '\\' tail (by decide) (by decide)
  · left; subst a2; exact scanItems_short 'b' _ tail (by decide) (by decide)
  · left; subst a3; exact scanItems_short 'f' _ tail (by decide) (by decide)
  · left; subst a4; exact scanItems_short 'n' _ tail (by decide) (by decide)
  · left; subst a5; exact scanItems_short 'r' _ tail (by decide) (by decide)
  · left; subst a6; exact scanItems_short 't' _ tail (by decide) (by decide)
  · right
    have hlt : c.toNat < 128 := by
      rcases a7 with h | rfl | rfl | rfl
      · omega
      · decide
      · decide
      · decide
    refine ⟨by omega, ?_⟩
    have := scanItems_unit '0' '0' (hexDigit (c.toNat / 16)) (hexDigit (c.toNat % 16)) 0 0
      (c.toNat / 16) (c.toNat % 16) tail (by decide) (by decide)
      (hexVal_hexDigit _ (by omega)) (hexVal_hexDigit _ (by omega))
    have hv : ((0 * 16 + 0) * 16 + c.toNat / 16) * 16 + c.toNat % 16 = c.toNat := by omega
    rw [hv] at this
    exact this
  · right; subst a8
    exact ⟨by decide, scanItems_unit '2' '0' '2' '8' 2 0 2 8 tail (by decide) (by decide) (by decide) (by decide)⟩
  · right; subst a9
    exact ⟨by decide, scanItems_unit '2' '0' '2' '9' 2 0 2 9 tail (by decide) (by decide) (by decide) (by decide)⟩
  · left
    push_neg at a1 a7
    exact scanItems_raw c tail a1.1 a1.2 (by omega)

/-- A string literal written by `json.Marshal` is scanned back to the string. -/
theorem scanItems_escapeChars (cs rest : List Char) :
    ∃ items, scanItems (escapeChars cs ++ '"' :: rest) = some (items, rest) ∧
      decodeFrom none items = cs := by
  induction cs with
  | nil => exact ⟨[], by rw [escapeChars, List.nil_append, scanItems.eq_def]; simp, rfl⟩
  | cons c cs ih =>
    obtain ⟨items, h1, h2⟩ := ih
    have happ : escapeChars (c :: cs) ++ '"' :: rest
        = escapeChar c ++ (escapeChars cs ++ '"' :: rest) := by
      simp [escapeChars, List.append_assoc]
    rw [happ]
    rcases scanItems_escapeChar c (escapeChars cs ++ '"' :: rest) with h | ⟨hc, h⟩
    · exact ⟨StrItem.char c :: items, by rw [h, h1]; rfl, by simp [decodeFrom, h2]⟩
    · refine ⟨StrItem.unit c.toNat :: items, by rw [h, h1]; rfl, ?_⟩
      simp only [decodeFrom]
      rw [decodeFrom_some _ hc, h2, Char.ofNat_toNat]

/-- A string literal written by `json.Marshal`, read after its opening
quote. -/
theorem scanString_escapeChars (s : String) (rest : List Char) :
    scanString (escapeChars s.data ++ '"' :: rest) = some (s, rest) := by
  obtain ⟨items, h1, h2⟩ := scanItems_escapeChars s.data rest
  simp [scanString, h1, decodeItems, h2]


/-- A decimal digit character is a digit; it is `0` only for the digit zero. -/
theorem digitChar_isDigit (k : Nat) (hk : k < 10) :
    isDigit (Nat.digitChar k) = true ∧ (Nat.digitChar k = '0' → k = 0) := by
  interval_cases k <;> decide

/-- The digits `Nat.toDigitsCore` puts in front of its accumulator: a first
digit and more digits; the first is `0` only when the number is zero, and
then it stands alone. -/
theorem toDigitsCore_shape (fuel n : Nat) (ds : List Char) (h : n < fuel) :
    ∃ d tl, Nat.toDigitsCore 10 fuel n ds = d :: tl ++ ds ∧ isDigit d = true ∧
      (∀ c ∈ tl, isDigit c = true) ∧ (n ≠ 0 → d ≠ '0') ∧ (n = 0 → tl = []) := by
  induction fuel generalizing n ds with
  | zero => omega
  | succ fuel ih =>
    rw [Nat.toDigitsCore]
    have hd := digitChar_isDigit (n % 10) (Nat.mod_lt _ (by decide))
    by_cases h0 : n / 10 = 0
    · simp only [h0, if_true]
      refine ⟨Nat.digitChar (n % 10), [], rfl, hd.1, by simp, ?_, fun _ => rfl⟩
      intro hn hz
      have := hd.2 hz
      omega
    · simp only [h0, if_false]
      obtain ⟨d, tl, e, hdig, htl, hne, _⟩ := ih (n / 10) (Nat.digitChar (n % 10) :: ds) (by omega)
      refine ⟨d, tl ++ [Nat.digitChar (n % 10)], by simp [e], hdig, ?_, fun _ => hne h0, ?_⟩
      · intro c hc
        rcases List.mem_append.mp hc with hc | hc
        · exact htl c hc
        · simp at hc; subst hc; exact hd.1
      · intro hn; subst hn; simp at h0

/-- Digits followed by something that is no digit: `span` splits there. -/
theorem span_isDigit (tl rest : List Char) (htl : ∀ c ∈ tl, isDigit c = true)
    (hrest : ∀ c r, rest = c :: r → isDigit c = false) :
    (tl ++ rest).span isDigit = (tl, rest) := by
  induction tl with
  | nil =>
    cases rest with
    | nil => rfl
    | cons c r => simp [List.takeWhile, List.dropWhile, hrest c r rfl]
  | cons a tl ih =>
    have ha := htl a (List.mem_cons_self _ _)
    have := ih (fun c hc => htl c (List.mem_cons_of_mem _ hc))
    simp only [List.span_eq_take_drop, Prod.mk.injEq] at this ⊢
    simp [List.takeWhile, List.dropWhile, ha, this.1, this.2]

/-- The integer part of a number written by `Nat.toDigits` is scanned back. -/
theorem scanInt_toDigits (n : Nat) (rest : List Char)
    (hrest : ∀ c r, rest = c :: r → isDigit c = false) :
    scanInt (Nat.toDigits 10 n ++ rest) = some (Nat.toDigits 10 n, rest) := by
  obtain ⟨d, tl, e, hdig, htl, hne, hz⟩ := toDigitsCore_shape (n + 1) n [] (by omega)
  have e' : Nat.toDigits 10 n = d :: tl := by
    unfold Nat.toDigits; rw [e]; simp
  rw [e']
  simp only [List.cons_append, scanInt]
  by_cases hd0 : d = '0'
  · have hn : n = 0 := by
      by_contra hn
      exact hne hn hd0
    have := hz hn
    subst this
    simp [hd0]
  · simp only [if_neg hd0, hdig, if_true, span_isDigit tl rest htl hrest]

/-- A number written by `formatInt` is scanned back when a comma, a closing
brace or a closing bracket follows. -/
theorem scanNumber_formatInt (v : Int) (c : Char) (tail : List Char)
    (hc : c = ',' ∨ c = '}' ∨ c = ']') :
    scanNumber ((formatInt v).data ++ c :: tail) = some ((formatInt v).data, c :: tail) := by
  have hrest : ∀ c' r, c :: tail = c' :: r → isDigit c' = false := by
    intro c' r h
    have : c' = c := by injection h with h1 _; exact h1.symm
    subst this
    rcases hc with rfl | rfl | rfl <;> decide
  have hdot : c ≠ '.' := by rcases hc with rfl | rfl | rfl <;> decide
  have he : ¬ (c = 'e' ∨ c = 'E') := by rcases hc with rfl | rfl | rfl <;> decide
  have hint := scanInt_toDigits v.natAbs (c :: tail) hrest
  obtain ⟨d, tl, e, hdig, _, _, _⟩ := toDigitsCore_shape (v.natAbs + 1) v.natAbs [] (by omega)
  have e' : Nat.toDigits 10 v.natAbs = d :: tl := by
    unfold Nat.toDigits; rw [e]; simp
  have hminus : d ≠ '-' := by
    intro h; subst h; revert hdig; decide
  unfold formatInt
  by_cases hv : v < 0
  · simp only [hv, if_true, List.cons_append, scanNumber, scanSign, hint, scanFrac, scanExp,
      if_neg hdot, if_neg he]
    simp
  · simp only [hv, if_false, scanNumber]
    rw [e'] at hint ⊢
    simp only [List.cons_append, scanSign, if_neg hminus]
    simp only [List.cons_append] at hint
    simp only [hint, scanFrac, scanExp, if_neg hdot, if_neg he]
    simp



/-- A character that is no white space stops `skipSpace`. -/
theorem skipSpace_cons (c : Char) (r : List Char) (h : isSpace c = false) :
    skipSpace (c :: r) = c :: r := by
  simp [skipSpace, h]

/-- A string is read back by the value parser. -/
theorem parseValue_str (fuel : Nat) (s : String) (rest : List Char) :
    parseValue (fuel + 1) (render (Json.str s) ++ rest) = some (Json.str s, rest) := by
  have h : render (Json.str s) ++ rest = '"' :: (escapeChars s.data ++ '"' :: rest) := by
    simp [render, renderString]
  rw [h, parseValue, skipSpace_cons _ _ (by decide)]
  simp [scanString_escapeChars]

/-- A boolean is read back by the value parser. -/
theorem parseValue_bool (fuel : Nat) (b : Bool) (rest : List Char) :
    parseValue (fuel + 1) (render (Json.bool b) ++ rest) = some (Json.bool b, rest) := by
  cases b
  · have h : render (Json.bool false) ++ rest = 'f' :: 'a' :: 'l' :: 's' :: 'e' :: rest := rfl
    rw [h, parseValue, skipSpace_cons _ _ (by decide)]
    simp [stripWord]
  · have h : render (Json.bool true) ++ rest = 't' :: 'r' :: 'u' :: 'e' :: rest := rfl
    rw [h, parseValue, skipSpace_cons _ _ (by decide)]
    simp [stripWord]


/-- A digit is none of the characters that start another kind of value, and
no white space. -/
theorem isDigit_not_special (d : Char) (h : isDigit d = true) :
    isSpace d = false ∧ d ≠ 'n' ∧ d ≠ 't' ∧ d ≠ 'f' ∧ d ≠ '"' ∧ d ≠ '[' ∧ d ≠ '{' := by
  have h' : 48 ≤ d.toNat ∧ d.toNat ≤ 57 := by simpa [isDigit] using h
  refine ⟨?_, ?_, ?_, ?_, ?_, ?_, ?_⟩
  · simp only [isSpace, Bool.or_eq_false_iff, decide_eq_false_iff_not]
    refine ⟨⟨⟨?_, ?_⟩, ?_⟩, ?_⟩ <;> (intro e; rw [e] at h'; revert h'; decide)
  all_goals (intro e; rw [e] at h'; revert h'; decide)

/-- A number written by `formatInt` is read back by the value parser when a
separator follows. -/
theorem parseValue_num (fuel : Nat) (v : Int) :
    ReadsBack (parseValue (fuel + 1)) (Json.num (formatInt v)) := by
  intro c tail hc
  have hscan := scanNumber_formatInt v c tail hc
  have hr : render (Json.num (formatInt v)) = (formatInt v).data := rfl
  rw [hr]
  obtain ⟨d, tl, e, hdig, _, _, _⟩ := toDigitsCore_shape (v.natAbs + 1) v.natAbs [] (by omega)
  have e' : Nat.toDigits 10 v.natAbs = d :: tl := by
    unfold Nat.toDigits; rw [e]; simp
  have hfirst : ∃ a r, (formatInt v).data ++ c :: tail = a :: r ∧ (a = '-' ∨ isDigit a = true) := by
    unfold formatInt
    by_cases hv : v < 0
    · exact ⟨'-', Nat.toDigits 10 v.natAbs ++ c :: tail,
        by simp only [hv, if_true, List.cons_append], Or.inl rfl⟩
    · exact ⟨d, tl ++ c :: tail, by simp only [hv, if_false, e', List.cons_append], Or.inr hdig⟩
  obtain ⟨a, r, har, ha⟩ := hfirst
  have hns : isSpace a = false ∧ a ≠ 'n' ∧ a ≠ 't' ∧ a ≠ 'f' ∧ a ≠ '"' ∧ a ≠ '[' ∧ a ≠ '{' := by
    rcases ha with rfl | ha
    · decide
    · exact isDigit_not_special a ha
  rw [har] at hscan ⊢
  rw [parseValue, skipSpace_cons _ _ hns.1]
  simp only [if_neg hns.2.1, if_neg hns.2.2.1, if_neg hns.2.2.2.1, if_neg hns.2.2.2.2.1,
    if_neg hns.2.2.2.2.2.1, if_neg hns.2.2.2.2.2.2, ha, if_true, hscan, Option.map]

/-- The elements of a non-empty array are read back, given enough fuel for
their number and a value parser that reads each of them back. -/
theorem parseElems_renderElems (pv : List Char → Option (Json × List Char))
    (vs : List Json) (hne : vs ≠ []) (n : Nat) (hn : vs.length ≤ n) (rest : List Char)
    (hpv : ∀ v ∈ vs, ReadsBack pv v) :
    parseElems pv n (renderElems vs ++ ']' :: rest) = some (vs, rest) := by
  induction vs generalizing n with
  | nil => exact absurd rfl hne
  | cons v ws ih =>
    cases n with
    | zero => simp at hn
    | succ n =>
      cases ws with
      | nil =>
        have h := hpv v (List.mem_cons_self _ _) ']' rest (Or.inr (Or.inr rfl))
        simp only [renderElems, parseElems, h, skipSpace_cons ']' rest (by decide)]
        simp
      | cons w more =>
        have h := hpv v (List.mem_cons_self _ _) ',' (renderElems (w :: more) ++ ']' :: rest)
          (Or.inl rfl)
        have hih := ih (by simp) n (by simpa using hn)
          (fun x hx => hpv x (List.mem_cons_of_mem _ hx))
        have happ : renderElems (v :: w :: more) ++ ']' :: rest
            = render v ++ ',' :: (renderElems (w :: more) ++ ']' :: rest) := by
          simp [renderElems]
        rw [happ, parseElems, h]
        simp only [skipSpace_cons ',' _ (by decide), if_true, hih]

/-- The members of a non-empty object are read back, given enough fuel for
their number and a value parser that reads each member's value back. -/
theorem parseMembers_renderMembers (pv : List Char → Option (Json × List Char))
    (ms : List (String × Json)) (hne : ms ≠ []) (n : Nat) (hn : ms.length ≤ n)
    (rest : List Char) (hpv : ∀ m ∈ ms, ReadsBack pv m.2) :
    parseMembers pv n (renderMembers ms ++ '}' :: rest) = some (ms, rest) := by
  induction ms generalizing n with
  | nil => exact absurd rfl hne
  | cons m ws ih =>
    obtain ⟨k, v⟩ := m
    cases n with
    | zero => simp at hn
    | succ n =>
      cases ws with
      | nil =>
        have h := hpv (k, v) (List.mem_cons_self _ _) '}' rest (Or.inr (Or.inl rfl))
        have happ : renderMembers [(k, v)] ++ '}' :: rest
            = '"' :: (escapeChars k.data ++ '"' :: ':' :: (render v ++ '}' :: rest)) := by
          simp [renderMembers, renderString]
        rw [happ, parseMembers, skipSpace_cons '"' _ (by decide)]
        simp only [if_true, scanString_escapeChars, skipSpace_cons ':' _ (by decide), h,
          skipSpace_cons '}' _ (by decide)]
        simp
      | cons w more =>
        have h := hpv (k, v) (List.mem_cons_self _ _) ','
          (renderMembers (w :: more) ++ '}' :: rest) (Or.inl rfl)
        have hih := ih (by simp) n (by simpa using hn)
          (fun x hx => hpv x (List.mem_cons_of_mem _ hx))
        have happ : renderMembers ((k, v) :: w :: more) ++ '}' :: rest
            = '"' :: (escapeChars k.data ++ '"' :: ':' ::
                (render v ++ ',' :: (renderMembers (w :: more) ++ '}' :: rest))) := by
          simp [renderMembers, renderString]
        rw [happ, parseMembers, skipSpace_cons '"' _ (by decide)]
        simp only [if_true, scanString_escapeChars, skipSpace_cons ':' _ (by decide), h,
          skipSpace_cons ',' _ (by decide), hih]


/-- The text of a non-empty list of members starts with a quote. -/
theorem renderMembers_head (ms : List (String × Json)) (hne : ms ≠ []) :
    ∃ r, renderMembers ms = '"' :: r := by
  cases ms with
  | nil => exact absurd rfl hne
  | cons m ws =>
    obtain ⟨k, v⟩ := m
    cases ws with
    | nil => exact ⟨_, by simp only [renderMembers, renderString, List.cons_append]; rfl⟩
    | cons w more => exact ⟨_, by simp only [renderMembers, renderString, List.cons_append]; rfl⟩

/-- A non-empty object is read back by the value parser, given fuel for its
members and a value parser one level down that reads each value back. -/
theorem parseValue_obj (fuel : Nat) (ms : List (String × Json)) (hne : ms ≠ [])
    (hlen : ms.length ≤ fuel) (hpv : ∀ m ∈ ms, ReadsBack (parseValue fuel) m.2)
    (rest : List Char) :
    parseValue (fuel + 1) (render (Json.obj ms) ++ rest) = some (Json.obj ms, rest) := by
  have happ : render (Json.obj ms) ++ rest = '{' :: (renderMembers ms ++ '}' :: rest) := by
    simp [render]
  have hp := parseMembers_renderMembers (parseValue fuel) ms hne fuel hlen rest hpv
  obtain ⟨r, hr⟩ := renderMembers_head ms hne
  rw [happ, parseValue, skipSpace_cons '{' _ (by decide)]
  rw [hr] at hp ⊢
  simp only [List.cons_append] at hp ⊢
  simp only [skipSpace_cons '"' _ (by decide), hp]
  simp

/-- The object of a `PingResult` is read back by the value parser. -/
theorem parseValue_toJson (fuel : Nat) (r : PingResult) :
    ReadsBack (parseValue (fuel + 5)) r.toJson := by
  intro c tail hc
  have hprim : ∀ m ∈ ([("host", Json.str r.Host), ("ping_ms", Json.num (formatInt r.PingMs)),
      ("success", Json.bool r.Success)] ++
        (if r.Error = "" then [] else [("error", Json.str r.Error)]) : List (String × Json)),
      ReadsBack (parseValue (fuel + 4)) m.2 := by
    intro m hm
    have hcases : m.2 = Json.str r.Host ∨ m.2 = Json.num (formatInt r.PingMs) ∨
        m.2 = Json.bool r.Success ∨ m.2 = Json.str r.Error := by
      by_cases he : r.Error = ""
      · simp only [he, if_true, List.append_nil, List.mem_cons, List.mem_singleton] at hm
        rcases hm with rfl | rfl | rfl | hm
        · exact Or.inl rfl
        · exact Or.inr (Or.inl rfl)
        · exact Or.inr (Or.inr (Or.inl rfl))
        · simp at hm
      · simp only [he, if_false, List.mem_append, List.mem_cons, List.mem_singleton] at hm
        rcases hm with (rfl | rfl | rfl | hm) | (rfl | hm)
        · exact Or.inl rfl
        · exact Or.inr (Or.inl rfl)
        · exact Or.inr (Or.inr (Or.inl rfl))
        · simp at hm
        · exact Or.inr (Or.inr (Or.inr rfl))
        · simp at hm
    rcases hcases with h | h | h | h <;> rw [h]
    · intro c' t' _; exact parseValue_str (fuel + 3) r.Host (c' :: t')
    · exact parseValue_num (fuel + 3) r.PingMs
    · intro c' t' _; exact parseValue_bool (fuel + 3) r.Success (c' :: t')
    · intro c' t' _; exact parseValue_str (fuel + 3) r.Error (c' :: t')
  refine parseValue_obj (fuel + 4) _ ?_ ?_ hprim (c :: tail)
  · simp
  · by_cases he : r.Error = "" <;> simp [he]

/-- The text of the object of a `PingResult` starts with an opening brace and
is at least five characters long. -/
theorem render_toJson_head (r : PingResult) :
    ∃ t, render r.toJson = '{' :: t ∧ 5 ≤ t.length := by
  refine ⟨renderMembers
      ([("host", Json.str r.Host), ("ping_ms", Json.num (formatInt r.PingMs)),
        ("success", Json.bool r.Success)] ++
        (if r.Error = "" then [] else [("error", Json.str r.Error)])) ++ ['}'],
    by simp only [PingResult.toJson, render], ?_⟩
  by_cases he : r.Error = "" <;>
    simp [he, renderMembers, renderString, List.length_append] <;> omega

/-- The text of the elements of an array of `PingResult` objects is at least
six characters for each of them. -/
theorem renderElems_toJson_length (rs : List PingResult) :
    6 * rs.length ≤ (renderElems (rs.map PingResult.toJson)).length := by
  induction rs with
  | nil => simp
  | cons r rs ih =>
    obtain ⟨t, ht, hlen⟩ := render_toJson_head r
    cases rs with
    | nil => simp only [List.map, renderElems, ht, List.length_cons, List.length_nil]; omega
    | cons r' rs' =>
      simp only [List.map, renderElems, ht, List.length_cons, List.length_append] at ih ⊢
      omega

/-- The text `Marshal` writes is read back, as the array of the objects of
the results. -/
theorem parseJson_Marshal (rs : List PingResult) :
    parseJson (Marshal rs) = some (Json.arr (rs.map PingResult.toJson)) := by
  have hdata : (Marshal rs).data = '[' :: (renderElems (rs.map PingResult.toJson) ++ [']']) := by
    simp [Marshal, render]
  have hlen : (Marshal rs).length = (renderElems (rs.map PingResult.toJson)).length + 2 := by
    simp [String.length, hdata]
  have hsize := renderElems_toJson_length rs
  unfold parseJson
  rw [hdata, hlen]
  cases rs with
  | nil => simp [renderElems, parseValue, skipSpace, isSpace]
  | cons r rs' =>
    obtain ⟨t, ht, _⟩ := render_toJson_head r
    have hfirst : ∃ u, renderElems ((r :: rs').map PingResult.toJson) = '{' :: u := by
      cases rs' with
      | nil => exact ⟨t, by simp only [List.map, renderElems, ht]⟩
      | cons r' rs'' => exact ⟨_, by simp only [List.map, renderElems, ht, List.cons_append]; rfl⟩
    obtain ⟨u, hu⟩ := hfirst
    simp only [List.length_cons] at hsize
    obtain ⟨F, hF⟩ : ∃ F, (renderElems ((r :: rs').map PingResult.toJson)).length + 2 = F + 5 :=
      ⟨(renderElems ((r :: rs').map PingResult.toJson)).length - 3, by omega⟩
    have hp := parseElems_renderElems (parseValue (F + 5)) ((r :: rs').map PingResult.toJson)
      (by simp) (F + 5) (by simp only [List.length_map, List.length_cons]; omega) []
      (fun v hv => by
        obtain ⟨x, _, rfl⟩ := List.mem_map.mp hv
        exact parseValue_toJson F x)
    rw [hF, parseValue, skipSpace_cons '[' _ (by decide)]
    rw [hu] at hp ⊢
    simp only [List.cons_append] at hp ⊢
    simp only [skipSpace_cons '{' _ (by decide), hp]
    simp [skipSpace]

/-! ### The fuel of the parser is enough -/

/-- Dropping white space does not lengthen the input. -/
theorem skipSpace_length (cs : List Char) : (skipSpace cs).length ≤ cs.length := by
  induction cs with
  | nil => simp [skipSpace]
  | cons c cs ih =>
    simp only [skipSpace]
    split
    · simp only [List.length_cons]; omega
    · simp

/-- Scanning the body of a string literal consumes at least its closing
quote. -/
theorem scanItems_length (n : Nat) : ∀ (cs : List Char) (items : List StrItem) (r : List Char),
    cs.length ≤ n → scanItems cs = some (items, r) → r.length < cs.length := by
  induction n using Nat.strong_induction_on with
  | _ n ih =>
    intro cs items r hn h
    rw [scanItems.eq_def] at h
    split at h
    · cases h
    · rename_i c rest
      split at h
      · cases h; simp
      · split at h
        · split at h
          · cases h
          · rename_i e rest1
            split at h
            · split at h
              · rename_i h1 h2 h3 h4 rest2
                split at h
                · split at h
                  · rename_i items' r' heq
                    cases h
                    have := ih (n - 1) (by simp only [List.length_cons] at hn; omega) rest2 items' r
                      (by simp only [List.length_cons] at hn; omega) heq
                    simp only [List.length_cons]; omega
                  · cases h
                · cases h
              · cases h
            · split at h
              · split at h
                · rename_i items' r' heq
                  cases h
                  have := ih (n - 1) (by simp only [List.length_cons] at hn; omega) rest1 items' r
                    (by simp only [List.length_cons] at hn; omega) heq
                  simp only [List.length_cons]; omega
                · cases h
              · cases h
        · split at h
          · cases h
          · split at h
            · rename_i items' r' heq
              cases h
              have := ih (n - 1) (by simp only [List.length_cons] at hn; omega) rest items' r
                (by simp only [List.length_cons] at hn; omega) heq
              simp only [List.length_cons]; omega
            · cases h


/-- Scanning a string literal consumes at least its closing quote. -/
theorem scanString_length (cs : List Char) (s : String) (r : List Char)
    (h : scanString cs = some (s, r)) : r.length < cs.length := by
  unfold scanString at h
  split at h
  · rename_i items rest heq
    cases h
    exact scanItems_length cs.length cs items r (Nat.le_refl _) heq
  · cases h

/-- What `span` leaves is no longer than its input. -/
theorem span_snd_length (l : List Char) : (l.span isDigit).2.length ≤ l.length := by
  rw [List.span_eq_take_drop]
  exact (List.dropWhile_sublist isDigit).length_le

/-- Reading the sign does not lengthen the input. -/
theorem scanSign_length (cs : List Char) : (scanSign cs).2.length ≤ cs.length := by
  cases cs with
  | nil => simp [scanSign]
  | cons c rest =>
    simp only [scanSign]
    split <;> simp

/-- The integer part of a number is at least one character. -/
theorem scanInt_length (cs ip r : List Char) (h : scanInt cs = some (ip, r)) :
    r.length < cs.length := by
  unfold scanInt at h
  split at h
  · cases h
  · rename_i c rest
    split at h
    · cases h; simp
    · split at h
      · cases h
        have := span_snd_length rest
        simp only [List.length_cons]; omega
      · cases h

/-- Reading the fraction does not lengthen the input. -/
theorem scanFrac_length (cs fp r : List Char) (h : scanFrac cs = some (fp, r)) :
    r.length ≤ cs.length := by
  unfold scanFrac at h
  split at h
  · cases h; simp
  · rename_i c rest
    split at h
    · split at h
      · cases h
      · cases h
        have := span_snd_length rest
        simp only [List.length_cons]; omega
    · cases h; simp

/-- Reading the exponent does not lengthen the input. -/
theorem scanExp_length (cs ep r : List Char) (h : scanExp cs = some (ep, r)) :
    r.length ≤ cs.length := by
  unfold scanExp at h
  split at h
  · cases h; simp
  · rename_i c rest
    split at h
    · split at h
      · cases h
      · rename_i s rest1
        split at h
        · split at h
          · cases h
          · cases h
            have := span_snd_length rest1
            simp only [List.length_cons]; omega
        · split at h
          · cases h
          · cases h
            have := span_snd_length (s :: rest1)
            simp only [List.length_cons] at this ⊢; omega
    · cases h; simp

/-- Scanning a number literal consumes at least one character. -/
theorem scanNumber_length (cs lit r : List Char) (h : scanNumber cs = some (lit, r)) :
    r.length < cs.length := by
  unfold scanNumber at h
  have h0 := scanSign_length cs
  cases hI : scanInt (scanSign cs).2 with
  | none => simp [hI] at h
  | some pI =>
    obtain ⟨ip, r1⟩ := pI
    have h1 := scanInt_length _ _ _ hI
    cases hF : scanFrac r1 with
    | none => simp [hI, hF] at h
    | some pF =>
      obtain ⟨fp, r2⟩ := pF
      have h2 := scanFrac_length _ _ _ hF
      cases hE : scanExp r2 with
      | none => simp [hI, hF, hE] at h
      | some pE =>
        obtain ⟨ep, r3⟩ := pE
        have h3 := scanExp_length _ _ _ hE
        simp only [hI, hF, hE, Option.some.injEq, Prod.mk.injEq] at h
        obtain ⟨_, rfl⟩ := h
        omega

/-- Stripping a word does not lengthen the input. -/
theorem stripWord_length (w cs r : List Char) (h : stripWord w cs = some r) :
    r.length ≤ cs.length := by
  induction w generalizing cs with
  | nil => simp only [stripWord] at h; cases h; exact Nat.le_refl _
  | cons a w ih =>
    cases cs with
    | nil => simp [stripWord] at h
    | cons c cs =>
      simp only [stripWord] at h
      split at h
      · have := ih cs h
        simp only [List.length_cons]; omega
      · cases h


/-- Reading the elements of an array consumes input, when reading one value
does. -/
theorem parseElems_length (pv : List Char → Option (Json × List Char))
    (hpv : ∀ cs v r, pv cs = some (v, r) → r.length < cs.length) (n : Nat) :
    ∀ (cs : List Char) (vs : List Json) (r : List Char),
      parseElems pv n cs = some (vs, r) → r.length < cs.length := by
  induction n with
  | zero => intro cs vs r h; simp [parseElems] at h
  | succ n ih =>
    intro cs vs r h
    rw [parseElems] at h
    split at h
    · cases h
    · rename_i v r0 hv
      have h1 := hpv _ _ _ hv
      have h2 := skipSpace_length r0
      split at h
      · rename_i c r1 hs
        rw [hs] at h2
        simp only [List.length_cons] at h2
        split at h
        · split at h
          · rename_i vs' r2 hrec
            cases h
            have := ih _ _ _ hrec
            omega
          · cases h
        · split at h
          · cases h; omega
          · cases h
      · cases h

/-- Reading the members of an object consumes input, when reading one value
does. -/
theorem parseMembers_length (pv : List Char → Option (Json × List Char))
    (hpv : ∀ cs v r, pv cs = some (v, r) → r.length < cs.length) (n : Nat) :
    ∀ (cs : List Char) (ms : List (String × Json)) (r : List Char),
      parseMembers pv n cs = some (ms, r) → r.length < cs.length := by
  induction n with
  | zero => intro cs ms r h; simp [parseMembers] at h
  | succ n ih =>
    intro cs ms r h
    rw [parseMembers] at h
    have h0 := skipSpace_length cs
    split at h
    · rename_i q r0 hq
      rw [hq] at h0
      simp only [List.length_cons] at h0
      split at h
      · split at h
        · cases h
        · rename_i key r1 hk
          have h1 := scanString_length _ _ _ hk
          have h2 := skipSpace_length r1
          split at h
          · rename_i c r2 hc
            rw [hc] at h2
            simp only [List.length_cons] at h2
            split at h
            · split at h
              · cases h
              · rename_i v r3 hv
                have h3 := hpv _ _ _ hv
                have h4 := skipSpace_length r3
                split at h
                · rename_i d r4 hd
                  rw [hd] at h4
                  simp only [List.length_cons] at h4
                  split at h
                  · split at h
                    · rename_i ms' r5 hrec
                      cases h
                      have := ih _ _ _ hrec
                      omega
                    · cases h
                  · split at h
                    · cases h; omega
                    · cases h
                · cases h
            · cases h
          · cases h
      · cases h
    · cases h

/-- Reading a value consumes at least one character, whatever the fuel. -/
theorem parseValue_length (fuel : Nat) :
    ∀ (cs : List Char) (v : Json) (r : List Char),
      parseValue fuel cs = some (v, r) → r.length < cs.length := by
  induction fuel with
  | zero => intro cs v r h; simp [parseValue] at h
  | succ fuel ih =>
    intro cs v r h
    rw [parseValue] at h
    have h0 := skipSpace_length cs
    split at h
    · cases h
    · rename_i c rest hc
      rw [hc] at h0
      simp only [List.length_cons] at h0
      split at h
      · cases hw : stripWord "ull".data rest with
        | none => simp [hw] at h
        | some r' =>
          simp only [hw, Option.map_some', Option.some.injEq, Prod.mk.injEq] at h
          have := stripWord_length _ _ _ hw
          obtain ⟨_, rfl⟩ := h
          omega
      · split at h
        · cases hw : stripWord "rue".data rest with
          | none => simp [hw] at h
          | some r' =>
            simp only [hw, Option.map_some', Option.some.injEq, Prod.mk.injEq] at h
            have := stripWord_length _ _ _ hw
            obtain ⟨_, rfl⟩ := h
            omega
        · split at h
          · cases hw : stripWord "alse".data rest with
            | none => simp [hw] at h
            | some r' =>
              simp only [hw, Option.map_some', Option.some.injEq, Prod.mk.injEq] at h
              have := stripWord_length _ _ _ hw
              obtain ⟨_, rfl⟩ := h
              omega
          · split at h
            · cases hw : scanString rest with
              | none => simp [hw] at h
              | some p =>
                obtain ⟨s, r'⟩ := p
                simp only [hw, Option.map_some', Option.some.injEq, Prod.mk.injEq] at h
                have := scanString_length _ _ _ hw
                obtain ⟨_, rfl⟩ := h
                omega
            · split at h
              · have h1 := skipSpace_length rest
                split at h
                · cases h
                · rename_i d rest1 hd
                  rw [hd] at h1
                  simp only [List.length_cons] at h1
                  split at h
                  · cases h; omega
                  · cases hw : parseElems (parseValue fuel) fuel (d :: rest1) with
                    | none => simp [hw] at h
                    | some p =>
                      obtain ⟨vs, r'⟩ := p
                      simp only [hw, Option.map_some', Option.some.injEq, Prod.mk.injEq] at h
                      have := parseElems_length (parseValue fuel) ih fuel _ _ _ hw
                      simp only [List.length_cons] at this
                      obtain ⟨_, rfl⟩ := h
                      omega
              · split at h
                · have h1 := skipSpace_length rest
                  split at h
                  · cases h
                  · rename_i d rest1 hd
                    rw [hd] at h1
                    simp only [List.length_cons] at h1
                    split at h
                    · cases h; omega
                    · cases hw : parseMembers (parseValue fuel) fuel (d :: rest1) with
                      | none => simp [hw] at h
                      | some p =>
                        obtain ⟨ms, r'⟩ := p
                        simp only [hw, Option.map_some', Option.some.injEq, Prod.mk.injEq] at h
                        have := parseMembers_length (parseValue fuel) ih fuel _ _ _ hw
                        simp only [List.length_cons] at this
                        obtain ⟨_, rfl⟩ := h
                        omega
                · split at h
                  · cases hw : scanNumber (c :: rest) with
                    | none => simp [hw] at h
                    | some p =>
                      obtain ⟨lit, r'⟩ := p
                      simp only [hw, Option.map_some', Option.some.injEq, Prod.mk.injEq] at h
                      have := scanNumber_length _ _ _ hw
                      simp only [List.length_cons] at this
                      obtain ⟨_, rfl⟩ := h
                      omega
                  · cases h


/-- More fuel for the elements of an array changes nothing once the fuel
exceeds the length of the input, for value parsers that agree on shorter
inputs. -/
theorem parseElems_fuel (pv pv' : List Char → Option (Json × List Char))
    (hpv : ∀ cs v r, pv cs = some (v, r) → r.length < cs.length) (n : Nat) :
    ∀ (m : Nat) (cs : List Char), cs.length < n → n ≤ m →
      (∀ cs' : List Char, cs'.length ≤ cs.length → pv' cs' = pv cs') →
      parseElems pv' m cs = parseElems pv n cs := by
  induction n with
  | zero => intro m cs h; omega
  | succ n ih =>
    intro m cs hlt hle hag
    obtain ⟨m', rfl⟩ : ∃ m', m = m' + 1 := ⟨m - 1, by omega⟩
    rw [parseElems, parseElems, hag cs (Nat.le_refl _)]
    cases hv : pv cs with
    | none => rfl
    | some p =>
      obtain ⟨v, r0⟩ := p
      have h1 := hpv _ _ _ hv
      have h2 := skipSpace_length r0
      simp only
      cases hs : skipSpace r0 with
      | nil => rfl
      | cons c r1 =>
        rw [hs] at h2
        simp only [List.length_cons] at h2
        simp only
        have hrec := ih m' r1 (by omega) (by omega)
          (fun cs' hcs' => hag cs' (by omega))
        rw [hrec]

/-- More fuel for the members of an object changes nothing once the fuel
exceeds the length of the input, for value parsers that agree on shorter
inputs. -/
theorem parseMembers_fuel (pv pv' : List Char → Option (Json × List Char))
    (hpv : ∀ cs v r, pv cs = some (v, r) → r.length < cs.length) (n : Nat) :
    ∀ (m : Nat) (cs : List Char), cs.length < n → n ≤ m →
      (∀ cs' : List Char, cs'.length ≤ cs.length → pv' cs' = pv cs') →
      parseMembers pv' m cs = parseMembers pv n cs := by
  induction n with
  | zero => intro m cs h; omega
  | succ n ih =>
    intro m cs hlt hle hag
    obtain ⟨m', rfl⟩ : ∃ m', m = m' + 1 := ⟨m - 1, by omega⟩
    rw [parseMembers, parseMembers]
    have h0 := skipSpace_length cs
    cases hq : skipSpace cs with
    | nil => rfl
    | cons q r0 =>
      rw [hq] at h0
      simp only [List.length_cons] at h0
      simp only
      by_cases hqq : q = '"'
      · simp only [hqq, if_true]
        cases hk : scanString r0 with
        | none => rfl
        | some p =>
          obtain ⟨key, r1⟩ := p
          have h1 := scanString_length _ _ _ hk
          have h2 := skipSpace_length r1
          simp only
          cases hc : skipSpace r1 with
          | nil => rfl
          | cons c r2 =>
            rw [hc] at h2
            simp only [List.length_cons] at h2
            simp only
            by_cases hcc : c = ':'
            · simp only [hcc, if_true]
              rw [hag r2 (by omega)]
              cases hv : pv r2 with
              | none => rfl
              | some p =>
                obtain ⟨v, r3⟩ := p
                have h3 := hpv _ _ _ hv
                have h4 := skipSpace_length r3
                simp only
                cases hd : skipSpace r3 with
                | nil => rfl
                | cons d r4 =>
                  rw [hd] at h4
                  simp only [List.length_cons] at h4
                  simp only
                  have hrec := ih m' r4 (by omega) (by omega)
                    (fun cs' hcs' => hag cs' (by omega))
                  rw [hrec]
            · simp only [if_neg hcc]
      · simp only [if_neg hqq]

/-- More fuel for a value changes nothing once the fuel exceeds the length of
the input. -/
theorem parseValue_fuel (f : Nat) :
    ∀ (g : Nat) (cs : List Char), cs.length < f → f ≤ g →
      parseValue g cs = parseValue f cs := by
  induction f with
  | zero => intro g cs h; omega
  | succ f ih =>
    intro g cs hlt hle
    obtain ⟨g', rfl⟩ : ∃ g', g = g' + 1 := ⟨g - 1, by omega⟩
    rw [parseValue, parseValue]
    have h0 := skipSpace_length cs
    cases hc : skipSpace cs with
    | nil => rfl
    | cons c rest =>
      rw [hc] at h0
      simp only [List.length_cons] at h0
      dsimp only
      have h1 := skipSpace_length rest
      have harr : ∀ d rest1, skipSpace rest = d :: rest1 →
          parseElems (parseValue g') g' (d :: rest1)
            = parseElems (parseValue f) f (d :: rest1) := by
        intro d rest1 hd
        rw [hd] at h1
        simp only [List.length_cons] at h1
        exact parseElems_fuel (parseValue f) (parseValue g') (parseValue_length f) f g'
          (d :: rest1) (by simp only [List.length_cons]; omega) (by omega)
          (fun cs' hcs' => ih g' cs' (by simp only [List.length_cons] at hcs'; omega) (by omega))
      have hobj : ∀ d rest1, skipSpace rest = d :: rest1 →
          parseMembers (parseValue g') g' (d :: rest1)
            = parseMembers (parseValue f) f (d :: rest1) := by
        intro d rest1 hd
        rw [hd] at h1
        simp only [List.length_cons] at h1
        exact parseMembers_fuel (parseValue f) (parseValue g') (parseValue_length f) f g'
          (d :: rest1) (by simp only [List.length_cons]; omega) (by omega)
          (fun cs' hcs' => ih g' cs' (by simp only [List.length_cons] at hcs'; omega) (by omega))
      cases hd : skipSpace rest with
      | nil => rfl
      | cons d rest1 =>
        dsimp only
        rw [harr d rest1 hd, hobj d rest1 hd]

/-- The fuel `parseJson` supplies is enough: with any larger fuel the value
parser gives the same answer on the text. -/
theorem parseJson_fuel (text : String) (extra : Nat) :
    parseValue (text.length + 1 + extra) text.data = parseValue (text.length + 1) text.data :=
  parseValue_fuel (text.length + 1) (text.length + 1 + extra) text.data
    (Nat.lt_succ_self _) (by omega)

/-- An array of strings is stored into a `[]string` as those strings. -/
theorem decodeElems_str (hostPorts : List String) :
    decodeElems (hostPorts.map Json.str) = some hostPorts := by
  induction hostPorts with
  | nil => rfl
  | cons a as ih => simp [decodeElems, decodeString, ih]

/-- The text of the elements of an array of strings is at least two
characters for each of them. -/
theorem renderElems_str_length (hostPorts : List String) :
    2 * hostPorts.length ≤ (renderElems (hostPorts.map Json.str)).length := by
  induction hostPorts with
  | nil => simp
  | cons a as ih =>
    cases as with
    | nil =>
      simp only [List.map, renderElems, render, renderString, List.length_cons,
        List.length_append, List.length_nil]
      omega
    | cons b bs =>
      simp only [List.map, renderElems, render, renderString, List.length_cons,
        List.length_append] at ih ⊢
      omega

/-- Every list of strings is what `json.Unmarshal` decodes from the compact
JSON text of that list: each list of addresses, of any length, is reached by
some addresses text. -/
theorem Unmarshal_render_strings (hostPorts : List String) :
    Unmarshal (String.mk (render (Json.arr (hostPorts.map Json.str)))) = .ok hostPorts := by
  have hdata : (String.mk (render (Json.arr (hostPorts.map Json.str)))).data
      = '[' :: (renderElems (hostPorts.map Json.str) ++ [']']) := by
    simp [render]
  have hlen : (String.mk (render (Json.arr (hostPorts.map Json.str)))).length
      = (renderElems (hostPorts.map Json.str)).length + 2 := by
    simp [String.length, render]
  have hsize := renderElems_str_length hostPorts
  have hparse : parseJson (String.mk (render (Json.arr (hostPorts.map Json.str))))
      = some (Json.arr (hostPorts.map Json.str)) := by
    unfold parseJson
    rw [hdata, hlen]
    cases hostPorts with
    | nil => simp [renderElems, parseValue, skipSpace, isSpace]
    | cons a as =>
      have hfirst : ∃ u, renderElems ((a :: as).map Json.str) = '"' :: u := by
        cases as with
        | nil => exact ⟨_, by simp only [List.map, renderElems, render, renderString]; rfl⟩
        | cons b bs =>
          exact ⟨_, by simp only [List.map, renderElems, render, renderString, List.cons_append]; rfl⟩
      obtain ⟨u, hu⟩ := hfirst
      simp only [List.length_cons] at hsize
      obtain ⟨F, hF⟩ : ∃ F, (renderElems ((a :: as).map Json.str)).length + 2 = F + 2 := ⟨_, rfl⟩
      have hp := parseElems_renderElems (parseValue (F + 2)) ((a :: as).map Json.str)
        (by simp) (F + 2) (by simp only [List.length_map, List.length_cons]; omega) []
        (fun v hv => by
          obtain ⟨x, _, rfl⟩ := List.mem_map.mp hv
          intro c t _
          exact parseValue_str (F + 1) x (c :: t))
      rw [hF, parseValue, skipSpace_cons '[' _ (by decide)]
      rw [hu] at hp ⊢
      simp only [List.cons_append] at hp ⊢
      simp only [skipSpace_cons '"' _ (by decide), hp]
      simp [skipSpace]
  simp [Unmarshal, hparse, decodeStrings, decodeElems_str]

/-! ## Theorems, part 3: `tcpPing` and `ParallelPing` -/

/-- The message of a `net.OpError` is never empty. -/
theorem OpError.Error_ne_empty (e : OpError) : e.Error ≠ "" := by
  intro h
  have hl := congrArg String.length h
  simp only [OpError.Error, String.length_append] at hl
  have h2 : ": ".length = 2 := by decide
  have h0 : "".length = 0 := by decide
  omega

/-- A goroutine's store leaves the length of `results` as it is. -/
theorem foldl_storeResult_length (w : World) (ctx : Context) (timeout : Int)
    (tasks : List (Nat × String)) (results : List PingResult) :
    (tasks.foldl (storeResult w ctx timeout) results).length = results.length := by
  induction tasks generalizing results with
  | nil => rfl
  | cons t ts ih => simp [List.foldl_cons, ih, storeResult]

/-- A slot no goroutine owns keeps its value. -/
theorem foldl_storeResult_other (w : World) (ctx : Context) (timeout : Int)
    (tasks : List (Nat × String)) (results : List PingResult) (j : Nat)
    (hj : j ∉ tasks.map Prod.fst) :
    (tasks.foldl (storeResult w ctx timeout) results)[j]? = results[j]? := by
  induction tasks generalizing results with
  | nil => rfl
  | cons t ts ih =>
    simp only [List.map_cons, List.mem_cons, not_or] at hj
    rw [List.foldl_cons, ih _ hj.2]
    simp only [storeResult]
    exact List.getElem?_set_ne (Ne.symm hj.1)

/-- The slot of a goroutine holds that goroutine's result, whatever the order
of the stores, as long as no two goroutines share an index. -/
theorem foldl_storeResult_own (w : World) (ctx : Context) (timeout : Int)
    (tasks : List (Nat × String)) (results : List PingResult)
    (hnd : (tasks.map Prod.fst).Nodup) (task : Nat × String) (hmem : task ∈ tasks)
    (hlt : task.1 < results.length) :
    (tasks.foldl (storeResult w ctx timeout) results)[task.1]?
      = some (tcpPing (w.probe task.1) ctx task.2 timeout) := by
  induction tasks generalizing results with
  | nil => simp at hmem
  | cons t ts ih =>
    simp only [List.map_cons, List.nodup_cons] at hnd
    rw [List.foldl_cons]
    rcases List.mem_cons.mp hmem with rfl | hin
    · rw [foldl_storeResult_other w ctx timeout ts _ _ hnd.1]
      simp only [storeResult]
      exact List.getElem?_set_self hlt
    · exact ih _ hnd.2 hin (by simpa [storeResult] using hlt)

/-- Under a fair scheduler the slice after `wg.Wait()` is, slot by slot, the
result of the probe of the address of that slot: the schedule has no part in
it. -/
theorem pingAll_eq (w : World) (hw : w.Fair) (hostPorts : List String) (timeoutMs : Int) :
    pingAll w hostPorts timeoutMs =
      hostPorts.enum.map (fun task =>
        tcpPing (w.probe task.1) (Context.withTimeout Context.background (batchTimeout timeoutMs))
          task.2 (perTargetTimeout timeoutMs)) := by
  apply List.ext_getElem?
  intro i
  have hperm := hw hostPorts.enum
  have hnd : ((w.schedule hostPorts.enum).map Prod.fst).Nodup := by
    rw [(hperm.map Prod.fst).nodup_iff, List.enum_map_fst]
    exact List.nodup_range _
  unfold pingAll
  by_cases hi : i < hostPorts.length
  · have hmem : (i, hostPorts[i]) ∈ w.schedule hostPorts.enum := by
      rw [hperm.mem_iff, List.mk_mem_enum_iff_getElem?]
      exact List.getElem?_eq_getElem hi
    have := foldl_storeResult_own w (Context.withTimeout Context.background (batchTimeout timeoutMs))
      (perTargetTimeout timeoutMs) _ (List.replicate hostPorts.length PingResult.zero) hnd
      (i, hostPorts[i]) hmem (by simpa using hi)
    simp only at this
    rw [this, List.getElem?_map, List.getElem?_enum, List.getElem?_eq_getElem hi]
    rfl
  · have h1 : (hostPorts.enum.map (fun task =>
        tcpPing (w.probe task.1) (Context.withTimeout Context.background (batchTimeout timeoutMs))
          task.2 (perTargetTimeout timeoutMs)))[i]? = none := by
      apply List.getElem?_eq_none
      simp; omega
    rw [h1]
    apply List.getElem?_eq_none
    rw [foldl_storeResult_length]
    simp; omega

/-- The slice after `wg.Wait()` has one slot per address, under any scheduler. -/
theorem pingAll_length (w : World) (hostPorts : List String) (timeoutMs : Int) :
    (pingAll w hostPorts timeoutMs).length = hostPorts.length := by
  unfold pingAll
  rw [foldl_storeResult_length]
  simp

/-- The result of `tcpPing` when the dial fails. -/
theorem tcpPing_failed (p : Probe) (ctx : Context) (hostPort : String) (timeout : Int)
    (err : OpError)
    (h : p.dial timeout (Context.withTimeout ctx timeout) "tcp" hostPort = DialOutcome.failed err) :
    tcpPing p ctx hostPort timeout
      = { Host := hostPort, PingMs := 0, Success := false, Error := err.Error } := by
  simp [tcpPing, h]

/-- The result of `tcpPing` when the dial connects. -/
theorem tcpPing_connected (p : Probe) (ctx : Context) (hostPort : String) (timeout : Int)
    (established afterClose : Int)
    (h : p.dial timeout (Context.withTimeout ctx timeout) "tcp" hostPort
      = DialOutcome.connected established afterClose) :
    tcpPing p ctx hostPort timeout
      = { Host := hostPort, PingMs := Milliseconds (afterClose - p.start), Success := true,
          Error := "" } := by
  simp [tcpPing, h]

/-- The function `tcpPing` puts its address in `Host` on both of its paths. -/
theorem tcpPing_Host (p : Probe) (ctx : Context) (hostPort : String) (timeout : Int) :
    (tcpPing p ctx hostPort timeout).Host = hostPort := by
  cases h : p.dial timeout (Context.withTimeout ctx timeout) "tcp" hostPort with
  | failed err => rw [tcpPing_failed p ctx hostPort timeout err h]
  | connected e z => rw [tcpPing_connected p ctx hostPort timeout e z h]

/-- Every result of `tcpPing` under a monotonic clock satisfies the invariant of
`PingResult`. -/
theorem tcpPing_Consistent (p : Probe) (hp : p.Monotone) (ctx : Context) (hostPort : String)
    (timeout : Int) : (tcpPing p ctx hostPort timeout).Consistent := by
  cases h : p.dial timeout (Context.withTimeout ctx timeout) "tcp" hostPort with
  | failed err =>
    rw [tcpPing_failed p ctx hostPort timeout err h]
    refine ⟨fun hs => by simp at hs, fun _ => ⟨rfl, err.Error, OpError.Error_ne_empty err, ?_⟩⟩
    simp [PingResult.toJson, Json.field, OpError.Error_ne_empty err, List.find?]
  | connected e z =>
    rw [tcpPing_connected p ctx hostPort timeout e z h]
    refine ⟨fun _ => ⟨?_, ?_⟩, fun hs => by simp at hs⟩
    · have := hp _ _ _ _ _ _ h
      exact Int.tdiv_nonneg (by omega) (by decide)
    · simp [PingResult.toJson, Json.field, List.find?]



/-- C1: when the addresses text decodes to `n` strings, `ParallelPing` returns
the encoding of an array of `n` `PingResult` objects, whatever the dials and
the scheduler do, and that text parses back to an array of `n` objects; the
text `[]` decodes to no string and yields `[]`. -/
theorem ParallelPing_result_count (w : World) (addresses : String) (timeoutMs : Int)
    (hostPorts : List String) (h : Unmarshal addresses = .ok hostPorts) :
    (∃ results : List PingResult,
      results.length = hostPorts.length ∧
      ParallelPing w addresses timeoutMs = Marshal results ∧
      parseJson (ParallelPing w addresses timeoutMs)
        = some (Json.arr (results.map PingResult.toJson)) ∧
      (results.map PingResult.toJson).length = hostPorts.length) ∧
    Unmarshal "[]" = .ok [] ∧ ParallelPing w "[]" timeoutMs = "[]" := by
  have hrun : ParallelPing w addresses timeoutMs = Marshal (pingAll w hostPorts timeoutMs) := by
    simp [ParallelPing, ParallelPing.run, h]
  refine ⟨⟨pingAll w hostPorts timeoutMs, pingAll_length w hostPorts timeoutMs, hrun, ?_, ?_⟩,
    by rfl, ?_⟩
  · rw [hrun]; exact parseJson_Marshal _
  · rw [List.length_map]; exact pingAll_length w hostPorts timeoutMs
  · have h0 : Unmarshal "[]" = .ok [] := by rfl
    have h1 : pingAll w [] timeoutMs = [] := by
      apply List.eq_nil_of_length_eq_zero
      rw [pingAll_length]; rfl
    simp only [ParallelPing, ParallelPing.run, h0, h1]
    decide

/-- C1, at a text of two addresses: the output is the encoding of two
results. -/
theorem ParallelPing_result_count_witness :
    Unmarshal "[\"10.0.0.1:80\", \"10.0.0.2:443\"]" = .ok ["10.0.0.1:80", "10.0.0.2:443"] ∧
    ∃ results : List PingResult,
      results.length = 2 ∧
      ParallelPing worldMixed "[\"10.0.0.1:80\", \"10.0.0.2:443\"]" 500 = Marshal results ∧
      parseJson (ParallelPing worldMixed "[\"10.0.0.1:80\", \"10.0.0.2:443\"]" 500)
        = some (Json.arr (results.map PingResult.toJson)) ∧
      (results.map PingResult.toJson).length = 2 :=
  ⟨by rfl,
    (ParallelPing_result_count worldMixed "[\"10.0.0.1:80\", \"10.0.0.2:443\"]" 500
      ["10.0.0.1:80", "10.0.0.2:443"] (by rfl)).1⟩

/-- C2: under a scheduler that lets every started goroutine store its result
once, in any order, the i-th result has the i-th address as its host, whether
that probe connected or failed, and the returned text parses to an array
whose i-th object has the i-th address under `host`; another such scheduler
over the same dial outcomes returns the same text. -/
theorem ParallelPing_host_order (w : World) (hw : w.Fair) (addresses : String)
    (timeoutMs : Int) (hostPorts : List String) (h : Unmarshal addresses = .ok hostPorts) :
    ∃ results : List PingResult,
      ParallelPing w addresses timeoutMs = Marshal results ∧
      parseJson (ParallelPing w addresses timeoutMs)
        = some (Json.arr (results.map PingResult.toJson)) ∧
      results.length = hostPorts.length ∧
      results.map PingResult.Host = hostPorts ∧
      (∀ (i : Nat) (hi : i < hostPorts.length),
        ((results.map PingResult.toJson)[i]?).bind (Json.field "host")
          = some (Json.str hostPorts[i])) ∧
      (∀ w' : World, w'.Fair → w'.probe = w.probe →
        ParallelPing w' addresses timeoutMs = ParallelPing w addresses timeoutMs) := by
  have hrun : ∀ v : World, ParallelPing v addresses timeoutMs
      = Marshal (pingAll v hostPorts timeoutMs) := by
    intro v; simp [ParallelPing, ParallelPing.run, h]
  have hhost : (pingAll w hostPorts timeoutMs).map PingResult.Host = hostPorts := by
    rw [pingAll_eq w hw]
    apply List.ext_getElem?
    intro i
    simp only [List.getElem?_map, List.getElem?_enum]
    cases hostPorts[i]? with
    | none => rfl
    | some a => simp [tcpPing_Host]
  refine ⟨pingAll w hostPorts timeoutMs, hrun w, ?_, pingAll_length w hostPorts timeoutMs,
    hhost, ?_, ?_⟩
  · rw [hrun w]; exact parseJson_Marshal _
  · intro i hi
    have hi' : i < (pingAll w hostPorts timeoutMs).length := by
      rw [pingAll_length]; exact hi
    have hH : (pingAll w hostPorts timeoutMs)[i].Host = hostPorts[i] := by
      have := congrArg (fun l => l[i]?) hhost
      simp only [List.getElem?_map, List.getElem?_eq_getElem hi', List.getElem?_eq_getElem hi,
        Option.map_some'] at this
      exact Option.some.inj this
    rw [List.getElem?_map, List.getElem?_eq_getElem hi']
    simp [PingResult.toJson, Json.field, List.find?, hH]
  · intro w' hw' hp
    rw [hrun w', hrun w, pingAll_eq w' hw', pingAll_eq w hw, hp]

/-- C2, at two addresses with the goroutines finishing in reverse order: the
hosts come back in input order. -/
theorem ParallelPing_host_order_witness :
    worldMixed.Fair ∧
    Unmarshal "[\"10.0.0.1:80\", \"10.0.0.2:443\"]" = .ok ["10.0.0.1:80", "10.0.0.2:443"] ∧
    ∃ results : List PingResult,
      ParallelPing worldMixed "[\"10.0.0.1:80\", \"10.0.0.2:443\"]" 500 = Marshal results ∧
      results.map PingResult.Host = ["10.0.0.1:80", "10.0.0.2:443"] :=
  have hf : worldMixed.Fair := fun tasks => List.reverse_perm tasks
  have h := ParallelPing_host_order worldMixed hf "[\"10.0.0.1:80\", \"10.0.0.2:443\"]" 500
    ["10.0.0.1:80", "10.0.0.2:443"] (by rfl)
  ⟨hf, by rfl, h.elim fun results hr => ⟨results, hr.1, hr.2.2.2.1⟩⟩

/-- C3: under a monotonic clock every result of `tcpPing` satisfies the
invariant of `PingResult` (success: `ping_ms` not negative and no `error`
member in the encoded object; failure: `ping_ms` zero and an `error` member
with a non-empty string), and the text `ParallelPing` returns parses to the
array of the objects of results that all satisfy it. -/
theorem tcpPing_invariant (p : Probe) (hp : p.Monotone) (ctx : Context) (hostPort : String)
    (timeout : Int) (w : World) (hw : w.Fair) (hm : ∀ i, (w.probe i).Monotone)
    (addresses : String) (timeoutMs : Int) (hostPorts : List String)
    (h : Unmarshal addresses = .ok hostPorts) :
    (tcpPing p ctx hostPort timeout).Consistent ∧
    ∃ results : List PingResult,
      parseJson (ParallelPing w addresses timeoutMs)
        = some (Json.arr (results.map PingResult.toJson)) ∧
      ∀ r ∈ results, r.Consistent := by
  refine ⟨tcpPing_Consistent p hp ctx hostPort timeout, pingAll w hostPorts timeoutMs, ?_, ?_⟩
  · have hrun : ParallelPing w addresses timeoutMs = Marshal (pingAll w hostPorts timeoutMs) := by
      simp [ParallelPing, ParallelPing.run, h]
    rw [hrun]; exact parseJson_Marshal _
  · intro r hr
    rw [pingAll_eq w hw] at hr
    obtain ⟨task, _, rfl⟩ := List.mem_map.mp hr
    exact tcpPing_Consistent _ (hm task.1) _ _ _

/-- The example probes run on a monotonic clock. -/
theorem probeFast_Monotone : probeFast.Monotone := by
  intro timeout ctx network address established afterClose h
  simp only [probeFast, DialOutcome.connected.injEq] at h
  obtain ⟨rfl, rfl⟩ := h
  decide

/-- The failing example probe never connects, so its clock is monotonic. -/
theorem probeDown_Monotone : probeDown.Monotone := by
  intro timeout ctx network address established afterClose h
  simp only [probeDown] at h
  split at h <;> cases h

/-- C3, at a probe that connects and in a world of connecting and failing
probes. -/
theorem tcpPing_invariant_witness :
    probeFast.Monotone ∧ worldMixed.Fair ∧
    (tcpPing probeFast Context.background "10.0.0.1:80" (500 * Millisecond)).Consistent ∧
    ∃ results : List PingResult,
      parseJson (ParallelPing worldMixed "[\"10.0.0.1:80\", \"10.0.0.2:443\"]" 500)
        = some (Json.arr (results.map PingResult.toJson)) ∧
      ∀ r ∈ results, r.Consistent :=
  have hf : worldMixed.Fair := fun tasks => List.reverse_perm tasks
  have hm : ∀ i, (worldMixed.probe i).Monotone := fun i => by
    simp only [worldMixed]
    split
    · exact probeFast_Monotone
    · exact probeDown_Monotone
  have h := tcpPing_invariant probeFast probeFast_Monotone Context.background "10.0.0.1:80"
    (500 * Millisecond) worldMixed hf hm "[\"10.0.0.1:80\", \"10.0.0.2:443\"]" 500
    ["10.0.0.1:80", "10.0.0.2:443"] (by rfl)
  ⟨probeFast_Monotone, hf, h.1, h.2⟩

/-- An array is stored into a `[]string` unless one of its elements is
neither a string nor `null`. -/
theorem decodeElems_eq_none (elems : List Json) (e : Json) (he : e ∈ elems)
    (hs : ∀ s, e ≠ Json.str s) (hn : e ≠ Json.null) : decodeElems elems = none := by
  induction elems with
  | nil => simp at he
  | cons v vs ih =>
    rcases List.mem_cons.mp he with rfl | hin
    · have : decodeString e = none := by
        cases e with
        | null => exact absurd rfl hn
        | str s => exact absurd rfl (hs s)
        | bool b => rfl
        | num l => rfl
        | arr xs => rfl
        | obj ms => rfl
      simp [decodeElems, this]
    · have := ih hin
      simp only [decodeElems, this]
      cases decodeString v <;> rfl

/-- C4, as stated, fails: the array `[null]` holds a non-string element, yet
`ParallelPing` does not return `[]`; it starts one probe, for the empty
address, and returns that probe's result. -/
theorem ParallelPing_null_element_is_probed :
    ParallelPing.run worldDown "[null]" 1000
      = ("[\x7b\"host\":\"\",\"ping_ms\":0,\"success\":false,\"error\":\"dial tcp: missing address\"\x7d]",
          [(0, "")]) ∧
    ParallelPing worldDown "[null]" 1000 ≠ "[]" := by
  constructor
  · rfl
  · decide

/-- C4, amended: for a text that is not JSON, or is a JSON value other than an
array (`null` included), or is an array with an element that is neither a
string nor `null`, `ParallelPing` returns `[]` and starts no probe. -/
theorem ParallelPing_malformed (w : World) (addresses : String) (timeoutMs : Int)
    (h : parseJson addresses = none ∨
      (∃ v, parseJson addresses = some v ∧ ∀ elems, v ≠ Json.arr elems) ∨
      (∃ elems e, parseJson addresses = some (Json.arr elems) ∧ e ∈ elems ∧
        (∀ s, e ≠ Json.str s) ∧ e ≠ Json.null)) :
    ParallelPing.run w addresses timeoutMs = ("[]", []) ∧
    ParallelPing w addresses timeoutMs = "[]" := by
  have hempty : (Marshal (pingAll w [] timeoutMs), ([] : List String).enum)
      = (("[]" : String), ([] : List (Nat × String))) := by
    have h1 : pingAll w [] timeoutMs = [] := by
      apply List.eq_nil_of_length_eq_zero
      rw [pingAll_length]; rfl
    rw [h1]; decide
  have hrun : ParallelPing.run w addresses timeoutMs = ("[]", []) := by
    rcases h with h | ⟨v, h, hv⟩ | ⟨elems, e, h, he, hs, hn⟩
    · simp [ParallelPing.run, Unmarshal, h]
    · cases v with
      | arr xs => exact absurd rfl (hv xs)
      | null => simp only [ParallelPing.run, Unmarshal, h, decodeStrings]; exact hempty
      | bool b => simp [ParallelPing.run, Unmarshal, h, decodeStrings]
      | num l => simp [ParallelPing.run, Unmarshal, h, decodeStrings]
      | str s => simp [ParallelPing.run, Unmarshal, h, decodeStrings]
      | obj ms => simp [ParallelPing.run, Unmarshal, h, decodeStrings]
    · simp [ParallelPing.run, Unmarshal, h, decodeStrings, decodeElems_eq_none elems e he hs hn]
  exact ⟨hrun, by simp [ParallelPing, hrun]⟩

/-- C4, amended, at the array `[1]`, whose element is a number: the output is
`[]` and no probe is started. -/
theorem ParallelPing_malformed_witness :
    parseJson "[1]" = some (Json.arr [Json.num "1"]) ∧
    ParallelPing.run worldDown "[1]" 1000 = ("[]", []) ∧
    ParallelPing worldDown "[1]" 1000 = "[]" :=
  ⟨by rfl,
    ParallelPing_malformed worldDown "[1]" 1000
      (Or.inr (Or.inr ⟨[Json.num "1"], Json.num "1", by rfl, List.mem_singleton.mpr rfl,
        (fun _ hc => by cases hc), (fun hc => by cases hc)⟩))⟩

/-- C5: a `timeoutMs` of zero or less gives the run of `timeoutMs = 3000`; for
a decoded address list the run is the encoding of the slice the goroutines
fill by calling `tcpPing` with a per-target timeout of 3000 ms when
`timeoutMs` is zero or less and of `timeoutMs` ms, unchanged, when it is
positive; and `tcpPing` hands that timeout to the dialer and to the context
of the dial. -/
theorem ParallelPing_default_timeout (w : World) (addresses : String) (timeoutMs : Int) :
    (timeoutMs ≤ 0 →
      ParallelPing.run w addresses timeoutMs = ParallelPing.run w addresses 3000 ∧
      ParallelPing w addresses timeoutMs = ParallelPing w addresses 3000 ∧
      perTargetTimeout timeoutMs = 3000 * Millisecond) ∧
    (0 < timeoutMs → perTargetTimeout timeoutMs = timeoutMs * Millisecond) ∧
    (∀ hostPorts : List String, Unmarshal addresses = .ok hostPorts →
      ParallelPing.run w addresses timeoutMs =
        (Marshal
          ((w.schedule hostPorts.enum).foldl
            (fun results task =>
              results.set task.1
                (tcpPing (w.probe task.1)
                  (Context.withTimeout Context.background
                    (wrapInt32 ((if timeoutMs ≤ 0 then 3000 else timeoutMs) + 1000) * 1000000))
                  task.2
                  (if timeoutMs ≤ 0 then 3000 * 1000000 else timeoutMs * 1000000)))
            (List.replicate hostPorts.length PingResult.zero)),
         hostPorts.enum)) ∧
    (∀ (p : Probe) (ctx : Context) (hostPort : String) (timeout : Int),
      tcpPing p ctx hostPort timeout =
        match p.dial timeout (Context.withTimeout ctx timeout) "tcp" hostPort with
        | DialOutcome.failed err =>
          { Host := hostPort, PingMs := 0, Success := false, Error := err.Error }
        | DialOutcome.connected _ afterClose =>
          { Host := hostPort, PingMs := Milliseconds (afterClose - p.start), Success := true,
            Error := "" }) := by
  refine ⟨fun h => ?_, fun h => ?_, fun hostPorts hu => ?_, fun p ctx hostPort timeout => ?_⟩
  · have he : effectiveTimeoutMs timeoutMs = effectiveTimeoutMs 3000 := by
      simp [effectiveTimeoutMs, h]
    have hp : ∀ hostPorts, pingAll w hostPorts timeoutMs = pingAll w hostPorts 3000 := by
      intro hostPorts
      simp only [pingAll, batchTimeout, perTargetTimeout, he]
    have hr : ParallelPing.run w addresses timeoutMs = ParallelPing.run w addresses 3000 := by
      simp only [ParallelPing.run, hp]
    refine ⟨hr, by simp only [ParallelPing, hr], ?_⟩
    simp [perTargetTimeout, effectiveTimeoutMs, h]
  · have : ¬ timeoutMs ≤ 0 := by omega
    simp [perTargetTimeout, effectiveTimeoutMs, this]
  · have hper : perTargetTimeout timeoutMs
        = if timeoutMs ≤ 0 then 3000 * 1000000 else timeoutMs * 1000000 := by
      unfold perTargetTimeout effectiveTimeoutMs Millisecond
      split <;> rfl
    have hbatch : batchTimeout timeoutMs
        = wrapInt32 ((if timeoutMs ≤ 0 then 3000 else timeoutMs) + 1000) * 1000000 := rfl
    simp only [ParallelPing.run, hu, pingAll, hper, hbatch]
    rfl
  · cases h : p.dial timeout (Context.withTimeout ctx timeout) "tcp" hostPort with
    | failed err => rw [tcpPing_failed p ctx hostPort timeout err h]
    | connected e z => rw [tcpPing_connected p ctx hostPort timeout e z h]

/-- C5, in a world whose dials take exactly the timeout the dialer was given,
so that `ping_ms` shows the per-target timeout: 3000 for `timeoutMs = -5` and
for `timeoutMs = 0`, 500 for `timeoutMs = 500`. -/
theorem ParallelPing_default_timeout_witness :
    ParallelPing worldEcho "[\"10.0.0.1:80\"]" (-5) = ParallelPing worldEcho "[\"10.0.0.1:80\"]" 3000 ∧
    ParallelPing worldEcho "[\"10.0.0.1:80\"]" (-5)
      = "[\x7b\"host\":\"10.0.0.1:80\",\"ping_ms\":3000,\"success\":true\x7d]" ∧
    ParallelPing worldEcho "[\"10.0.0.1:80\"]" 0
      = "[\x7b\"host\":\"10.0.0.1:80\",\"ping_ms\":3000,\"success\":true\x7d]" ∧
    ParallelPing worldEcho "[\"10.0.0.1:80\"]" 500
      = "[\x7b\"host\":\"10.0.0.1:80\",\"ping_ms\":500,\"success\":true\x7d]" ∧
    perTargetTimeout (-5) = 3000 * Millisecond ∧
    perTargetTimeout 500 = 500 * Millisecond :=
  have h5 := (ParallelPing_default_timeout worldEcho "[\"10.0.0.1:80\"]" (-5)).1 (by decide)
  have hu : Unmarshal "[\"10.0.0.1:80\"]" = .ok ["10.0.0.1:80"] := by rfl
  have r5 := congrArg Prod.fst
    ((ParallelPing_default_timeout worldEcho "[\"10.0.0.1:80\"]" (-5)).2.2.1 ["10.0.0.1:80"] hu)
  have r0 := congrArg Prod.fst
    ((ParallelPing_default_timeout worldEcho "[\"10.0.0.1:80\"]" 0).2.2.1 ["10.0.0.1:80"] hu)
  have r500 := congrArg Prod.fst
    ((ParallelPing_default_timeout worldEcho "[\"10.0.0.1:80\"]" 500).2.2.1 ["10.0.0.1:80"] hu)
  ⟨h5.2.1, r5.trans (by decide), r0.trans (by decide), r500.trans (by decide), h5.2.2,
    (ParallelPing_default_timeout worldEcho "[\"10.0.0.1:80\"]" 500).2.1 (by decide)⟩

/-- The batch deadline is `timeoutMs + 1000` milliseconds, positive and longer
than the per-target timeout, as long as the `int32` sum does not overflow,
that is for `timeoutMs` up to 2147482647. -/
theorem batchTimeout_in_range (timeoutMs : Int) (h : timeoutMs ≤ 2147482647) :
    batchTimeout timeoutMs = (effectiveTimeoutMs timeoutMs + 1000) * Millisecond ∧
    0 < batchTimeout timeoutMs ∧ perTargetTimeout timeoutMs < batchTimeout timeoutMs := by
  have he : 0 < effectiveTimeoutMs timeoutMs ∧ effectiveTimeoutMs timeoutMs ≤ 2147482647 := by
    unfold effectiveTimeoutMs
    split <;> omega
  simp only [batchTimeout, perTargetTimeout, wrapInt32, Millisecond]
  generalize effectiveTimeoutMs timeoutMs = e at he ⊢
  omega

/-- C6, at `timeoutMs = 2147483647`: the `int32` sum `timeoutMs + 1000` wraps to
-2147482649, so the batch deadline the code sets is negative, shorter than
the per-target timeout, and not `timeoutMs + 1000` milliseconds; every probe
of the batch runs under that context. -/
theorem batchTimeout_overflows :
    effectiveTimeoutMs 2147483647 = 2147483647 ∧
    batchTimeout 2147483647 = -2147482649 * Millisecond ∧
    batchTimeout 2147483647 < 0 ∧
    batchTimeout 2147483647 < perTargetTimeout 2147483647 ∧
    batchTimeout 2147483647 ≠ (2147483647 + 1000) * Millisecond ∧
    ∀ (w : World) (hostPorts : List String),
      pingAll w hostPorts 2147483647 =
        (w.schedule hostPorts.enum).foldl
          (storeResult w (Context.withTimeout Context.background (-2147482649000000))
            2147483647000000)
          (List.replicate hostPorts.length PingResult.zero) := by
  refine ⟨by decide, by decide, by decide, by decide, by decide, fun w hostPorts => ?_⟩
  have h1 : batchTimeout 2147483647 = -2147482649000000 := by decide
  have h2 : perTargetTimeout 2147483647 = 2147483647000000 := by decide
  simp only [pingAll, h1, h2]

/-- The `ping_ms` of a successful probe is the time from the start of the dial
to the clock reading taken after `conn.Close()`, in whole milliseconds,
truncated toward zero. -/
theorem tcpPing_PingMs (p : Probe) (ctx : Context) (hostPort : String) (timeout : Int)
    (established afterClose : Int)
    (h : p.dial timeout (Context.withTimeout ctx timeout) "tcp" hostPort
      = DialOutcome.connected established afterClose) :
    (tcpPing p ctx hostPort timeout).PingMs = Int.tdiv (afterClose - p.start) 1000000 := by
  rw [tcpPing_connected p ctx hostPort timeout established afterClose h]
  rfl

/-- C7, at a probe whose connection is established 999999 ns after the start
of the dial and whose clock is read 1 ns later, after the close: the code
reports `ping_ms = 1`, while the time to the established connection,
truncated to milliseconds, is 0. -/
theorem tcpPing_measures_through_close :
    probeFast.dial (3000 * Millisecond)
        (Context.withTimeout Context.background (3000 * Millisecond)) "tcp" "10.0.0.1:80"
      = DialOutcome.connected 999999 1000000 ∧
    tcpPing probeFast Context.background "10.0.0.1:80" (3000 * Millisecond)
      = { Host := "10.0.0.1:80", PingMs := 1, Success := true, Error := "" } ∧
    Milliseconds (999999 - probeFast.start) = 0 := by
  decide

end Libcore
